import Mathlib

/-!
# Verification of the unidom branch-and-bound domination solver

This file is a shallow embedding, in Lean 4, of the parts of the
`unidom` C++ code base that the specification talks about, together with
theorems settling the specification's claims against that embedding.

Conventions used throughout:

* machine `int` values are embedded as `Int`; the source never relies on
  overflow in the fragments embedded here, so no wrap-around modelling is
  needed;
* `unidom::MAX_VERTS = unidom::MAX_DEGREE = 1024` (unidom_constants.hpp,
  default configuration);
* fallible operations return `Option`/`Bool` as appropriate;
* intrusive doubly-linked structures are embedded by the sequence/state
  they represent, with each operation translated from the corresponding
  C++ member function.
-/

namespace Unidom

/-- `unidom::MAX_VERTS` (unidom_constants.hpp, default configuration). -/
def MAX_VERTS : Int := 1024

/-- `unidom::MAX_DEGREE` (unidom_constants.hpp, default configuration). -/
def MAX_DEGREE : Int := 1024

/-! ## VertexSet (vertex_set.hpp)

`VertexSet` stores a dense array `set_elements` (members in insertion
order), a reverse index `set_indices`, and a `size` field.  For the uses
embedded here (the best-set sentinel `B`, the working set `D`, and the
output proxies) only the element sequence and the size are observable,
so the embedding keeps the ordered element list plus the `size` field
exactly as the source computes them.  `reset_full(n)` sets `size = n`
and `set_elements[i] = i` for `0 ≤ i < n` (vertex_set.hpp line 48). -/

structure VertexSetE where
  size : Int
  elements : List Nat
  deriving Repr, DecidableEq

/-- `VertexSet::reset_full(n)`: the set becomes `{0, …, n−1}` with
`size = n` (the source takes an `int` argument; a negative argument sets
`size` negative and leaves the element array effectively empty, which is
how the solver's `B.reset_full(n-1)` behaves on an empty graph). -/
def vsResetFull (n : Int) : VertexSetE :=
  { size := n, elements := List.range n.toNat }

/-- `VertexSet::reset_empty()`. -/
def vsResetEmpty : VertexSetE :=
  { size := 0, elements := [] }

/-- `VertexSet::get_size()`. -/
def vsGetSize (s : VertexSetE) : Int := s.size

/-! ## Best-set sentinel initialization (claim C2)

`BBTDDSolverVariant::solve` (bbt_dd_variants.cpp lines 71–75) and
`BBTMDDSolverVariant::solve` (bbt_mdd_variants.cpp lines 74–78) run

    D.reset();
    B.reset_full(n-1);
    if (!GENERATE_ALL && total_upper_bound < n)
        B.reset_full(total_upper_bound+1);

while `BBTFixedOrderSolver::solve` (bbt_fixed_order.cpp lines 58–62)
runs the same with `B.reset_full(n)` on the first line.  `B` is not
touched again before the first `FindDominatingSet` call. -/

/-- The sentinel `B` right after initialization in the DD and MDD
solver variants (`generateAll` is the `GENERATE_ALL` template flag and
`upper` is `total_upper_bound`, default `MAX_VERTS`). -/
def ddInitB (n upper : Int) (generateAll : Bool) : VertexSetE :=
  let B := vsResetFull (n - 1)
  if ¬generateAll ∧ upper < n then vsResetFull (upper + 1) else B

/-- The sentinel `B` right after initialization in the fixed-order
solver. -/
def fixedInitB (n upper : Int) (generateAll : Bool) : VertexSetE :=
  let B := vsResetFull n
  if ¬generateAll ∧ upper < n then vsResetFull (upper + 1) else B

/-! ## Graph::reset (graph.hpp lines 88–95, claim C9)

    void reset(int new_size){
        if (new_size >= unidom::MAX_VERTS)
            throw GraphError("Graph with too many vertices (…)");
        vertices.clear();
        vertices.resize(new_size);
        …
    }

The embedding returns `none` exactly when the source throws
`GraphError`, and otherwise the fresh vertex list `0 … new_size−1`. -/

def graphReset (newSize : Int) : Option (List Nat) :=
  if newSize ≥ MAX_VERTS then none
  else some (List.range newSize.toNat)

/-! ## Bounds checks (claim C3)

`BBTDDSolverVariant::bounds_satisfied` (bbt_dd_variants.cpp lines
233–247):

    VertIndex min_vertices_needed = UndominatedDPQ->count_minimum_to_dominate(n-total_covered);
    VertIndex min_total_size = D.get_size() + min_vertices_needed;
    if(GENERATE_ALL){
        if (min_total_size > total_upper_bound || n - total_fixed < min_vertices_needed)
            return false;
    }else{
        if (min_total_size >= B.get_size() || n - total_fixed < min_vertices_needed)
            return false;
    }
    return true;

All quantities involved are nonnegative at every call, so the
`int`/`unsigned` comparison against `total_upper_bound` agrees with the
`Int` comparison used here. -/

def bounds_satisfied (generateAll : Bool)
    (n totalFixed dSize bSize upper minNeeded : Int) : Bool :=
  let minTotal := dSize + minNeeded
  if generateAll then
    ¬(minTotal > upper ∨ n - totalFixed < minNeeded)
  else
    ¬(minTotal ≥ bSize ∨ n - totalFixed < minNeeded)

/-- `BBTMDDSolverVariant::evaluate_bounds` (bbt_mdd_variants.cpp lines
339–363), returning the source's tri-state: `1` ok, `-1` potentially
non-fatal failure, `0` fatal failure. -/
def evaluate_bounds (generateAll : Bool)
    (n totalFixed dSize bSize upper minNeeded : Int) : Int :=
  if minNeeded ≥ MAX_VERTS then 0
  else
    let minTotal := dSize + minNeeded
    if generateAll then
      if n - totalFixed + 1 < minNeeded then 0
      else if n - totalFixed + 1 = minNeeded then -1
      else if minTotal > upper then -1
      else 1
    else
      if n - totalFixed + 1 < minNeeded then 0
      else if n - totalFixed + 1 = minNeeded then -1
      else if minTotal ≥ bSize then -1
      else 1

/-- The pruning condition as the specification states it (§4.4.5):
generation mode fails iff `min_total > upper_bound` or
`n − total_fixed < min_needed`; optimization mode fails iff
`min_total ≥ |B|` or `n − total_fixed < min_needed`. -/
def specBoundsFail (generateAll : Bool)
    (n totalFixed dSize bSize upper minNeeded : Int) : Prop :=
  if generateAll then
    dSize + minNeeded > upper ∨ n - totalFixed < minNeeded
  else
    dSize + minNeeded ≥ bSize ∨ n - totalFixed < minNeeded

instance (g : Bool) (n tf d b u m : Int) :
    Decidable (specBoundsFail g n tf d b u m) := by
  unfold specBoundsFail; split <;> infer_instance

/-! ## DegreePQ: count_minimum_to_dominate (bbt_degreepq.hpp lines
196–216, claim C7)

    int count = 0;
    PQNode* node = tail;
    while(1){
        int deg = node->deg;
        if (deg == 0 || deg == Graph::INVALID_VERTEX)
            return unidom::MAX_VERTS+1;
        int vertices_needed = (m+deg-1)/deg;
        if (vertices_needed <= node->unfixed_count){
            count += vertices_needed; m = 0; break;
        }else{
            count += node->unfixed_count;
            m -= deg*node->unfixed_count;
            node = node->prev;
        }
    }
    return count;

The rank-node list is embedded as the list of `(deg, unfixed_count)`
pairs in the order the walk visits them (from `tail`, i.e. highest rank,
towards `head`); walking past `head` reaches the `head_tail` sentinel
whose `deg` is `Graph::INVALID_VERTEX`, embedded as the end of the
list.  C++ `/` on `int` truncates towards zero, which is `Int.tdiv`. -/

def count_minimum_to_dominate : List (Int × Int) → Int → Int → Int
  | [], _, _ => MAX_VERTS + 1
  | (deg, unfixed) :: rest, m, count =>
    if deg = 0 then MAX_VERTS + 1
    else
      let verticesNeeded := Int.tdiv (m + deg - 1) deg
      if verticesNeeded ≤ unfixed then count + verticesNeeded
      else count_minimum_to_dominate rest (m - deg * unfixed) (count + unfixed)

/-- The greedy estimate as the specification words it (§4.2): walk rank
nodes from highest to lowest; at each rank `d` with `u` unfixed members,
either consume `⌈m/d⌉` vertices and stop (when `⌈m/d⌉ ≤ u`), or consume
all `u` of them and subtract `d·u` from `m`; the walk fails (`none`,
"infinity") if rank 0 (or the end of the rank list) is reached with
`m > 0` — the claim states the function then returns `MAX_VERTS+1`.
Here `⌈m/d⌉` is mathematical ceiling division on nonnegative operands,
written with Euclidean division. -/
def specGreedyDominate : List (Int × Int) → Int → Option Int
  | [], m => if m > 0 then none else some 0
  | (deg, unfixed) :: rest, m =>
    if deg = 0 then (if m > 0 then none else some 0)
    else
      let need := Int.ediv (m + deg - 1) deg
      if need ≤ unfixed then some need
      else (specGreedyDominate rest (m - deg * unfixed)).map (unfixed + ·)

/-! ## Sibling restoration order after the branching loop (claim C4)

`BBTDDSolverVariant::FindDominatingSet` (bbt_dd_variants.cpp lines
388–392) restores the fixed-excluded siblings with

    //Duplicating an odd quirk of original implementation, we don't unstack fixed vertices
    //(so they're unstacked in the same order they were stacked)
    for(int q = 0; q < num_fixed; q++){
        add_candidate(G, fixed_list[q]);
    }

whereas `BBTMDDSolverVariant::FindDominatingSet` (bbt_mdd_variants.cpp
lines 457–460) restores with

    for(int q = num_fixed - 1; q >= 0; q--){
        mdd_stack->unexclude_dominator(fixed_list[q]);
        add_candidate(G, fixed_list[q]);
    }

and `BBTFixedOrderSolver::FindDominatingSet` (bbt_fixed_order.cpp lines
232–235) clears the `fixed` flags with the same downward loop.  The
embeddings below produce the sequence of vertices passed to the
restoration calls, in call order, from the contents of `fixed_list`
(which holds the banned siblings in the order they were banned). -/

/-- Restoration call order of the DD variants: `q = 0, 1, …`. -/
def ddRestoreOrder (fixedList : List Nat) : List Nat :=
  (List.range fixedList.length).map fun q => fixedList.getD q 0

/-- Restoration call order of the MDD variants (each visited vertex
receives `unexclude_dominator` and then `add_candidate`):
`q = num_fixed−1, …, 0`. -/
def mddRestoreOrder (fixedList : List Nat) : List Nat :=
  ((List.range fixedList.length).reverse).map fun q => fixedList.getD q 0

/-- Restoration (flag-clearing) order of the fixed-order solver:
`q = num_fixed−1, …, 0`. -/
def fixedRestoreOrder (fixedList : List Nat) : List Nat :=
  ((List.range fixedList.length).reverse).map fun q => fixedList.getD q 0

/-! ## Optimization-mode emission discipline (claim C10)

In all three solver families the only code that emits a set in
optimization mode, and the only code that writes `B` after
initialization, is the block run when `total_covered == n`
(bbt_dd_variants.cpp lines 334–339, bbt_mdd_variants.cpp lines 418–423,
bbt_fixed_order.cpp lines 184–189):

    if (D.get_size() >= total_lower_bound && D.get_size() < B.get_size()){
        B = D;
        output_proxy->process_set(*dom_inst,D);
    }

The embedding runs this guard over an arbitrary sequence of candidate
sets `D` (the fully-covered states the search reaches, in order),
accumulating the sets passed to `process_set`; quantifying over the
candidate sequence covers every solver variant and every instance. -/

/-- One execution of the optimization-mode emission guard: state is
(current `B.get_size()`, emitted sets so far, newest first). -/
def optEmitStep (lower : Int) (st : Int × List (List Nat)) (D : List Nat) :
    Int × List (List Nat) :=
  if (D.length : Int) ≥ lower ∧ (D.length : Int) < st.1 then
    ((D.length : Int), D :: st.2)
  else st

/-- All sets passed to `process_set` during one optimization-mode solve
whose fully-covered states are `Ds` (in the order the search reaches
them), given initial sentinel size `b0`; earliest emission first. -/
def optEmissions (lower b0 : Int) (Ds : List (List Nat)) : List (List Nat) :=
  (Ds.foldl (optEmitStep lower) (b0, [])).2.reverse

/-- `OutputProxyOutputBest` (basic_io.cpp lines 106–124): `initialize`
sets `best_set.reset_full(n)`; every `process_set` overwrites `best_set`
with the processed set; `finalize` reports `best_set`.  Given the list
of processed sets (earliest first), the reported set is the last one,
or the initialization sentinel `{0,…,n−1}` if none was processed. -/
def outputBestRetained (n : Nat) (processed : List (List Nat)) : List Nat :=
  processed.getLast? |>.getD (List.range n)

/-! ## Graph text format (graph_util.cpp, claim C8)

A graph is embedded as its list of adjacency lists (neighbour indices in
list order).  The ASCII stream is embedded as the list of the integers
it carries, in order: `operator<<`/`operator>>` on `int` round-trip each
number through its decimal representation, and the format is whitespace
separated, so the token list is a faithful interface.

    bool read_graph(std::istream& f, Graph& g){
        int n;
        if (!(f>>n) || n < 0 || n >= MAX_VERTS) return false;
        g.reset(n);
        for(int i = 0; i < n; i++){
            int deg;
            if (!(f>>deg) || deg < 0 || deg >= MAX_DEGREE) return false;
            for(int j = 0; j < deg; j++){
                VertIndex u;
                if (!(f>>u) || u < 0 || u >= MAX_DEGREE) return false;
                g[i].neighbours().push_back(u);
            }
        }
        return true;
    }

    void write_graph(std::ostream& f, Graph& g){
        f << g.n() << std::endl;
        for(auto v: g.V()){
            f << v.deg() << " ";
            for(auto u: v.neighbours()) f << u << " ";
            f << std::endl;
        }
    }
-/

/-- `write_graph`: the token stream produced for graph `g`. -/
def write_graph (g : List (List Int)) : List Int :=
  (g.length : Int) :: g.flatMap fun adj => (adj.length : Int) :: adj

/-- Read `deg` neighbour tokens, each validated like the source's inner
loop; returns the neighbours and the remaining stream. -/
def readNeighbours : Nat → List Int → Option (List Int × List Int)
  | 0, toks => some ([], toks)
  | _ + 1, [] => none
  | j + 1, u :: toks =>
    if u < 0 ∨ u ≥ MAX_DEGREE then none
    else (readNeighbours j toks).map fun (adj, rest) => (u :: adj, rest)

/-- Read `n` vertices' adjacency records (degree then neighbours). -/
def readVertices : Nat → List Int → Option (List (List Int) × List Int)
  | 0, toks => some ([], toks)
  | _ + 1, [] => none
  | i + 1, deg :: toks =>
    if deg < 0 ∨ deg ≥ MAX_DEGREE then none
    else
      match readNeighbours deg.toNat toks with
      | none => none
      | some (adj, rest) =>
        (readVertices i rest).map fun (g, rest') => (adj :: g, rest')

/-- `read_graph`: parse a token stream; `none` exactly when the source
returns `false`. -/
def read_graph (toks : List Int) : Option (List (List Int)) :=
  match toks with
  | [] => none
  | n :: rest =>
    if n < 0 ∨ n ≥ MAX_VERTS then none
    else (readVertices n.toNat rest).map Prod.fst

/-! ## rank_neighbours (bbt_dd_variants.cpp lines 249–314,
bbt_mdd_variants.cpp lines 269–334, claim C5)

Both versions build a doubly-linked node list ordered by uncovered
degree and then read it out.  For each candidate neighbour `u` (the DD
version iterates `G[v].neighbours()` skipping `fixed[u]`; the MDD
version iterates `CandidateNeighbours[v]`, whose members are exactly
the unfixed neighbours) a node `(u, uncovered_deg(u))` is inserted:

    NeighbourListNode *prevNode = degrees[uncovered_deg];
    if (!prevNode){
        prevNode = head_tail.prev;
        while(prevNode->deg > uncovered_deg)
            prevNode = prevNode->prev;
    }
    node->next = prevNode->next; node->prev = prevNode;
    node->next->prev = node->prev->next = node;
    degrees[uncovered_deg] = node;

i.e. the node is inserted directly after the scan's stop node — the
last node, walking back from the tail, whose degree is ≤ the new
node's.  (`degrees[d]` caches the most recently inserted node of degree
`d`; since the list stays sorted in nondecreasing degree and the most
recent degree-`d` node is the last of its degree class, inserting after
the cached node lands in exactly the position the tail scan would find,
so the cache is embedded as the scan it short-circuits.)  The embedding
keeps the list as a `List (Nat × Nat)` of `(u, deg)` pairs from head to
tail. -/

/-- One linked-list insertion of `rank_neighbours`: walking from the
tail, pass over the maximal run of nodes with `deg > d`, and place
`(u, d)` right after the stop node. -/
def rnInsert (acc : List (Nat × Nat)) (u : Nat) (d : Nat) : List (Nat × Nat) :=
  let passed := acc.reverse.takeWhile fun p => decide (d < p.2)
  let kept := acc.reverse.dropWhile fun p => decide (d < p.2)
  kept.reverse ++ (u, d) :: passed.reverse

/-- The insertion position characterized from the head: keep the
maximal prefix whose degrees are ≤ `d`, then place `(u, d)`.  On a list
kept in nondecreasing degree order (which the build loop maintains)
this is the same position as `rnInsert`'s tail scan; the proofs below
establish that and use this form for the induction. -/
def rnInsertF (u : Nat) (d : Nat) : List (Nat × Nat) → List (Nat × Nat)
  | [] => [(u, d)]
  | x :: xs => if x.2 ≤ d then x :: rnInsertF u d xs else (u, d) :: x :: xs

/-- The node list built by `rank_neighbours`'s insertion loop over the
neighbours `nbrs` (in iteration order): the DD version skips neighbours
with `fixed[u]` set (bbt_dd_variants.cpp lines 271–272); the MDD
version iterates `CandidateNeighbours[v]`, whose members are never
fixed, so it is this build with `fixed = fun _ => false`.  Uncovered
degrees are given by `udeg`. -/
def rnBuild (nbrs : List Nat) (fixed : Nat → Bool) (udeg : Nat → Nat) :
    List (Nat × Nat) :=
  nbrs.foldl (fun acc u => if fixed u then acc else rnInsert acc u (udeg u)) []

/-- `rank_neighbours`: after building the node list, the
`RANK_NEIGHBOURS_DESCENDING` rule walks from `head_tail.prev` (the
tail) by `prev` pointers while `node->deg != 0`, and the
`RANK_NEIGHBOURS_ASCENDING` rule walks from `head_tail.next` (the
head) by `next` pointers while `node->deg != 0`; both stop at the
`head_tail` sentinel (`deg == 0`) at the latest.  `descending = true`
selects `RANK_NEIGHBOURS_DESCENDING`. -/
def rank_neighbours (descending : Bool) (nbrs : List Nat) (fixed : Nat → Bool)
    (udeg : Nat → Nat) : List Nat :=
  let lst := rnBuild nbrs fixed udeg
  if descending then
    (lst.reverse.takeWhile fun p => decide (p.2 ≠ 0)).map Prod.fst
  else
    (lst.takeWhile fun p => decide (p.2 ≠ 0)).map Prod.fst

/-- The output claimed by the specification (§4.4.3) for the ascending
(minUCD) rule: neighbours with uncovered degree 0 omitted, the rest
sorted by uncovered degree ascending with ties in iteration
(insertion) order.  `maxd` is any bound on the uncovered degrees (the
source sizes its bucket array by `UndominatedDPQ->get_max_degree()`). -/
def specRankAsc (nbrs : List Nat) (fixed : Nat → Bool) (udeg : Nat → Nat)
    (maxd : Nat) : List Nat :=
  (List.range (maxd + 1)).flatMap fun d =>
    if d = 0 then []
    else (nbrs.filter fun u => ¬fixed u).filter fun u => udeg u = d

/-- The output claimed by the specification for the descending (maxUCD)
rule: uncovered degree descending, ties in iteration (insertion)
order, zeros omitted. -/
def specRankDesc (nbrs : List Nat) (fixed : Nat → Bool) (udeg : Nat → Nat)
    (maxd : Nat) : List Nat :=
  (List.range (maxd + 1)).reverse.flatMap fun d =>
    if d = 0 then []
    else (nbrs.filter fun u => ¬fixed u).filter fun u => udeg u = d

/-- What the code actually produces for the descending rule: uncovered
degree descending, but ties within one degree in reverse iteration
order (the tail-to-head walk visits the most recently inserted node of
each degree class first). -/
def specRankDescRevTies (nbrs : List Nat) (fixed : Nat → Bool)
    (udeg : Nat → Nat) (maxd : Nat) : List Nat :=
  (List.range (maxd + 1)).reverse.flatMap fun d =>
    if d = 0 then []
    else ((nbrs.filter fun u => ¬fixed u).filter fun u => udeg u = d).reverse

/-- The degree-`d` class of the node list: the unfixed neighbours with
uncovered degree `d`, in iteration order, as `(u, d)` nodes.  Used to
characterize the linked list the insertion loop builds. -/
def rnBucket (nbrs : List Nat) (fixed : Nat → Bool) (udeg : Nat → Nat)
    (d : Nat) : List (Nat × Nat) :=
  ((nbrs.filter fun u => ¬fixed u).filter fun u => udeg u = d).map fun u => (u, d)

/-- The degree classes concatenated along a degree list `ds` (taken
strictly increasing): the shape of the node list after the insertion
loop. -/
def rnBuckets (nbrs : List Nat) (fixed : Nat → Bool) (udeg : Nat → Nat)
    (ds : List Nat) : List (Nat × Nat) :=
  ds.flatMap (rnBucket nbrs fixed udeg)

/-! ## MDDStack (bbt_mddstack.hpp, claim C6)

State embedded: `mdd_values` (indexed by vertex), `mdd_counts` (indexed
by mdd value; the source array has `MAX_VERTS` cells and is only ever
indexed by valid mdd values), `max_mdd`, and the row stack.  A row is
the vertex that created it plus its `(vertex, old_mdd)` entries; the
embedding stores entries in *reverse push order* (`push` is `cons`), so
that the source's pop loop, which pops entries last-pushed-first, is a
left fold over the stored list.  The row stack itself grows at the
head.

The environment a call sees — the graph's neighbour list of `v`, the
current undominated set (in `VertexSet` iteration order), and
`recompute_mdd` (which reads only `CandidateNeighbours` and the DPQ,
both untouched by the MDDStack) — is passed explicitly. -/

/-- `MDDStack::INVALID_MDD` (bbt_mddstack.hpp line 34). -/
def INVALID_MDD : Int := 0x7fffffff

/-- Pointwise update of an `Int`-indexed counter array. -/
def bump (f : Int → Int) (i : Int) (delta : Int) : Int → Int :=
  fun j => if j = i then f j + delta else f j

/-- Pointwise update of the `mdd_values` array. -/
def setVal (f : Nat → Int) (u : Nat) (x : Int) : Nat → Int :=
  fun w => if w = u then x else f w

@[ext]
structure MddState where
  values : Nat → Int
  counts : Int → Int
  maxMdd : Int
  stack : List (Nat × List (Nat × Int))

/-- `while(mdd_counts[max_mdd] == 0 && max_mdd > 0) max_mdd--;`
(bbt_mddstack.hpp lines 101–102).  The fuel is the starting value of
`max_mdd` as a natural number, which bounds the possible iterations
because of the `max_mdd > 0` guard. -/
def addDrop (counts : Int → Int) : Nat → Int → Int
  | 0, m => m
  | fuel + 1, m => if counts m = 0 ∧ m > 0 then addDrop counts fuel (m - 1) else m

/-- `while(mdd_counts[max_mdd] == 0) max_mdd--;` (bbt_mddstack.hpp
lines 145–146).  This loop has no `max_mdd > 0` guard: if every bucket
from `max_mdd` down to 0 is empty the source underruns the array
(undefined behaviour); the embedding returns `-1` in that case, and
every theorem below carries hypotheses ruling it out. -/
def exclDrop (counts : Int → Int) : Nat → Int → Int
  | 0, m => if counts m = 0 then m - 1 else m
  | fuel + 1, m => if counts m = 0 then exclDrop counts fuel (m - 1) else m

/-- First loop of `MDDStack::add_dominator` (bbt_mddstack.hpp lines
73–82): clear the MDD of each of `v`'s neighbours out of the system.
Carries `(values, counts, row-entries-reverse-push-order)`. -/
def addDomLoop1 (nbrs : List Nat) :
    (Nat → Int) × (Int → Int) × List (Nat × Int) →
    (Nat → Int) × (Int → Int) × List (Nat × Int)
  | (values, counts, row) =>
    nbrs.foldl
      (fun (st : (Nat → Int) × (Int → Int) × List (Nat × Int)) u =>
        let (values, counts, row) := st
        let oldMdd := values u
        if oldMdd = INVALID_MDD then (values, counts, row)
        else
          (setVal values u INVALID_MDD, bump counts oldMdd (-1), (u, oldMdd) :: row))
      (values, counts, row)

/-- Second loop of `MDDStack::add_dominator` (bbt_mddstack.hpp lines
88–99): recompute the MDD of every remaining undominated vertex. -/
def addDomLoop2 (undom : List Nat) (recompute : Nat → Int) :
    (Nat → Int) × (Int → Int) × List (Nat × Int) →
    (Nat → Int) × (Int → Int) × List (Nat × Int)
  | (values, counts, row) =>
    undom.foldl
      (fun (st : (Nat → Int) × (Int → Int) × List (Nat × Int)) u =>
        let (values, counts, row) := st
        let oldMdd := values u
        let newMdd := recompute u
        if oldMdd = newMdd then (values, counts, row)
        else
          (setVal values u newMdd,
           bump (bump counts oldMdd (-1)) newMdd 1,
           (u, oldMdd) :: row))
      (values, counts, row)

/-- `MDDStack::add_dominator(v)` (bbt_mddstack.hpp lines 67–104). -/
def add_dominator (nbrs undom : List Nat) (recompute : Nat → Int) (v : Nat)
    (s : MddState) : MddState :=
  let r1 := addDomLoop1 nbrs (s.values, s.counts, [])
  let r2 := addDomLoop2 undom recompute r1
  { values := r2.1
    counts := r2.2.1
    maxMdd := addDrop r2.2.1 s.maxMdd.toNat s.maxMdd
    stack := (v, r2.2.2) :: s.stack }

/-- The entry-restoration loop shared by `remove_dominator` and
`unexclude_dominator`: pop each `(u, old_mdd)` entry, restore
`mdd_values[u]`, adjust `mdd_counts`, and track the highest restored
value.  `remove_dominator`'s version (bbt_mddstack.hpp lines 110–120)
skips the `mdd_counts` decrement when the current value is
`INVALID_MDD`; `unexclude_dominator`'s version (lines 156–166) has no
such test, but its rows never hold vertices whose current value is
`INVALID_MDD`, so the same fold embeds both.  Entries are stored in
reverse push order, so the left fold visits them exactly as the
source's `row.pop()` loop does. -/
def restoreRow (rowRev : List (Nat × Int)) :
    (Nat → Int) × (Int → Int) × Int → (Nat → Int) × (Int → Int) × Int
  | (values, counts, highest) =>
    rowRev.foldl
      (fun (st : (Nat → Int) × (Int → Int) × Int) e =>
        let (values, counts, highest) := st
        let u := e.1
        let newMdd := e.2
        let oldMdd := values u
        let counts := if oldMdd = INVALID_MDD then counts else bump counts oldMdd (-1)
        (setVal values u newMdd, bump counts newMdd 1, max highest newMdd))
      (values, counts, highest)

/-- `MDDStack::remove_dominator(v)` (bbt_mddstack.hpp lines 105–123).
`pop_row` asserts that the top row's recorded vertex is `v` (an
invariant violation aborts the program, §7 of the spec); popping an
empty stack, or popping a mismatched row, is embedded as the identity
(both are ruled out by the theorems' pairing). -/
def remove_dominator (v : Nat) (s : MddState) : MddState :=
  match s.stack with
  | [] => s
  | (d, rowRev) :: rest =>
    if d ≠ v then s else
    let r := restoreRow rowRev (s.values, s.counts, 0)
    { values := r.1
      counts := r.2.1
      maxMdd := if r.2.2 > s.maxMdd then r.2.2 else s.maxMdd
      stack := rest }

/-- The loop of `MDDStack::exclude_dominator` (bbt_mddstack.hpp lines
132–144): for each neighbour `u` of `v` still undominated, recompute
its MDD and record the change. -/
def exclDomLoop (nbrs : List Nat) (undomContains : Nat → Bool)
    (recompute : Nat → Int) :
    (Nat → Int) × (Int → Int) × List (Nat × Int) →
    (Nat → Int) × (Int → Int) × List (Nat × Int)
  | (values, counts, row) =>
    nbrs.foldl
      (fun (st : (Nat → Int) × (Int → Int) × List (Nat × Int)) u =>
        let (values, counts, row) := st
        if ¬undomContains u then (values, counts, row)
        else
          let oldMdd := values u
          let newMdd := recompute u
          if newMdd = oldMdd then (values, counts, row)
          else
            (setVal values u newMdd,
             bump (bump counts oldMdd (-1)) newMdd 1,
             (u, oldMdd) :: row))
      (values, counts, row)

/-- `MDDStack::exclude_dominator(v)` (bbt_mddstack.hpp lines 126–147). -/
def exclude_dominator (nbrs : List Nat) (undomContains : Nat → Bool)
    (recompute : Nat → Int) (v : Nat) (s : MddState) : MddState :=
  let r := exclDomLoop nbrs undomContains recompute (s.values, s.counts, [])
  { values := r.1
    counts := r.2.1
    maxMdd := exclDrop r.2.1 s.maxMdd.toNat s.maxMdd
    stack := (v, r.2.2) :: s.stack }

/-- `MDDStack::unexclude_dominator(v)` (bbt_mddstack.hpp lines
148–169).  Its restoration loop is `restoreRow` (see there); `pop_row`
again asserts the popped row belongs to `v`. -/
def unexclude_dominator (v : Nat) (s : MddState) : MddState :=
  match s.stack with
  | [] => s
  | (d, rowRev) :: rest =>
    if d ≠ v then s else
    let r := restoreRow rowRev (s.values, s.counts, 0)
    { values := r.1
      counts := r.2.1
      maxMdd := if r.2.2 > s.maxMdd then r.2.2 else s.maxMdd
      stack := rest }

/-- `MDDStack::min_vertices_needed` (bbt_mddstack.hpp lines 173–188):

    if (mdd_counts[0] > 0) return unidom::MAX_VERTS;
    int verts_needed = 0; int c = 0;
    for(int mdd = 0; mdd <= max_mdd; mdd++){
        c += mdd_counts[mdd];
        while(c > 0){ c -= mdd; verts_needed++; }
    }
    return verts_needed;

The inner `while` runs `⌈c/mdd⌉` times when `c > 0` and `mdd ≥ 1` (for
`mdd = 0` it would not terminate, but then `c = 0` because the
`mdd_counts[0] > 0` case already returned); it is embedded with fuel
`c.toNat`, enough because each iteration lowers `c` by `mdd ≥ 1`. -/
def mvnInner (mdd : Int) : Nat → Int × Int → Int × Int
  | 0, st => st
  | fuel + 1, (c, vertsNeeded) =>
    if c > 0 then mvnInner mdd fuel (c - mdd, vertsNeeded + 1) else (c, vertsNeeded)

/-- One iteration of `min_vertices_needed`'s bucket walk: accumulate
`c += mdd_counts[mdd]` and run the inner while loop. -/
def mvnStep (counts : Int → Int) (st : Int × Int) (mdd : Nat) : Int × Int :=
  let c := st.1 + counts (mdd : Int)
  mvnInner (mdd : Int) c.toNat (c, st.2)

def min_vertices_needed (counts : Int → Int) (maxMdd : Int) : Int :=
  if counts 0 > 0 then MAX_VERTS
  else ((List.range (maxMdd.toNat + 1)).foldl (mvnStep counts) (0, 0)).2

/-- The number of vertices `u < n` whose `mdd_values[u]` equals `d`
(the quantity the `mdd_counts` array tracks). -/
def cardVal (f : Nat → Int) (n : Nat) (d : Int) : Int :=
  ((List.range n).filter fun u => f u = d).length

/-- The `mdd_counts` invariant: every bucket the source maintains (the
array is indexed by mdd values, all of which are nonnegative and not
`INVALID_MDD`) holds the number of vertices currently carrying that
value. -/
def mddConsistent (values : Nat → Int) (counts : Int → Int) (n : Nat) : Prop :=
  ∀ d : Int, 0 ≤ d → d ≠ INVALID_MDD → counts d = cardVal values n d

/-- The `max_mdd` invariant of a well-formed `MDDStack` state: it is a
nonnegative valid index, every occupied bucket lies at or below it, and
it is itself occupied unless it is 0 (its lazily-maintained resting
value). -/
def mddMaxInv (counts : Int → Int) (maxMdd : Int) : Prop :=
  0 ≤ maxMdd ∧ maxMdd ≠ INVALID_MDD ∧
    (∀ d : Int, 0 ≤ d → d ≠ INVALID_MDD → maxMdd < d → counts d = 0) ∧
    (counts maxMdd ≠ 0 ∨ maxMdd = 0)

/-- The `mdd_values` invariant: every live (non-`INVALID_MDD`) value
lies between 0 and `max_mdd`. -/
def mddValuesInv (values : Nat → Int) (maxMdd : Int) : Prop :=
  ∀ u : Nat, values u ≠ INVALID_MDD → 0 ≤ values u ∧ values u ≤ maxMdd

/-- The `MDDStack` constructor's value initialization (bbt_mddstack.hpp
lines 196–219) for a fresh solve: every vertex of the (initially fully
undominated) range gets `recompute` as its value and counts are
accumulated; then `max_mdd` is assigned by

    for (int i = 0; i < n; i++)
        if (mdd_counts[i] > 0) max_mdd = i;

Note the loop only inspects counts at indices `< n`; if every occupied
bucket has index `≥ n` (e.g. the `K₁` instance, where the one vertex
gets mdd `1 = n`), `max_mdd` keeps its prior contents — and the member
is never initialized before this loop, so that prior value is
indeterminate.  `maxMdd0` models it. -/
def mddInit (n : Nat) (recompute : Nat → Int) (maxMdd0 : Int) : MddState :=
  let values : Nat → Int := fun u => if u < n then recompute u else -1
  let counts : Int → Int := fun d => cardVal values n d
  { values := values
    counts := counts
    maxMdd := (List.range n).foldl
      (fun (m : Int) (i : Nat) => if counts (i : Int) > 0 then (i : Int) else m) maxMdd0
    stack := [] }

/-! ## The fixed-order solver (bbt_fixed_order.cpp, claim C1)

A complete executable embedding of `BBTFixedOrderSolver` (including the
`BBTFrameworkSolver` res/mod accounting).  The graph is embedded as its
adjacency lists; `solve`'s preprocessing (`add_loops`,
`sort_neighbours_descending`) is embedded below.  Recursion depth is
bounded with fuel; the source recursion is finite on finite graphs, and
the theorems evaluate the embedding with ample fuel. -/

/-- Solver settings: `resmod_mod`, `resmod_res`, `resmod_depth`,
`total_lower_bound`, `total_upper_bound` (bbt_framework.hpp lines
124–129; all `unsigned int`) and the `GENERATE_ALL` template flag.
Constructor defaults (lines 35–39): `mod = 1`, `res = 0`,
`depth = INVALID_DEPTH = 2^32 − 1`, `upper = MAX_VERTS`, `lower = 0`. -/
structure FOParams where
  resmodMod : Nat
  resmodRes : Nat
  resmodDepth : Nat
  lower : Int
  upper : Int
  generateAll : Bool

/-- The default-constructed settings. -/
def foDefaults (generateAll : Bool) : FOParams :=
  { resmodMod := 1, resmodRes := 0, resmodDepth := 4294967295
    lower := 0, upper := MAX_VERTS, generateAll := generateAll }

/-- Search state of one `solve` call, plus the trace of sets passed to
`output_proxy->process_set` (earliest first) and an `error` flag for
the `"Graph is not consistent"` throw. -/
structure FOState where
  D : List Nat
  B : List Nat
  covered : Nat → Int
  fixed : Nat → Bool
  totalCovered : Int
  totalFixed : Int
  depthLog : Nat → Nat
  emitted : List (List Nat)
  error : Bool

/-- Bump a `Nat`-indexed counter. -/
def bumpN (f : Nat → Int) (i : Nat) (delta : Int) : Nat → Int :=
  fun j => if j = i then f j + delta else f j

/-- `Vertex::add_neighbour_simple(v)` applied for every vertex's own
index (`add_loops`, bbt_fixed_order.cpp lines 128–131): append the
self-loop unless already present. -/
def addLoops (adj : List (List Nat)) : List (List Nat) :=
  (List.range adj.length).map fun v =>
    let l := adj.getD v []
    if v ∈ l then l else l ++ [v]

/-- Stable insertion for descending order: the insertion point is after
every earlier element that is `>` or `=`, matching
`std::stable_sort` with comparator `a > b`. -/
def insertDesc (x : Nat) : List Nat → List Nat
  | [] => [x]
  | y :: ys => if x > y then x :: y :: ys else y :: insertDesc x ys

/-- `sort_neighbours_descending` for one list. -/
def sortDesc (l : List Nat) : List Nat :=
  l.foldl (fun acc x => insertDesc x acc) [] |>.reverse

/-- One step of `FindDominatingSet`'s pivot scan
(`while(covered[i]) i++;` then `if (i >= n) throw …`): the first
`j ≥ i` with `covered[j] = 0`.  The `covered` array is zero beyond the
graph (it is a zero-filled `MAX_VERTS` array only ever touched at
neighbour indices `< n`), so the scan stops at `n` at the latest. -/
def foScanUncovered (covered : Nat → Int) (n i : Nat) : Nat :=
  (((List.range (n + 1)).filter fun j => i ≤ j ∧ covered j = 0).headD n)

/-- `BBTFixedOrderSolver::add_vertex_to_set<check>(G, i, j, …)`
(bbt_fixed_order.cpp lines 139–164).  `recur` is the recursive
`FindDominatingSet<check>` call (supplied by `foFind` one fuel level
down, so the whole recursion is structural on fuel). -/
def foAddVertex (recur : Bool → Nat → FOState → FOState)
    (adj : Nat → List Nat) (check : Bool) (i j : Nat) :
    FOState × List Nat → FOState × List Nat
  | (s, fixedList) =>
    let s := { s with fixed := fun w => if w = j then true else s.fixed w
                      totalFixed := s.totalFixed + 1 }
    let fixedList := fixedList ++ [j]
    let s := { s with D := s.D ++ [j] }
    -- for k in adj j: if (covered[k]==0) total_covered++; covered[k]++;
    let s := (adj j).foldl
      (fun s k =>
        { s with totalCovered := if s.covered k = 0 then s.totalCovered + 1 else s.totalCovered
                 covered := bumpN s.covered k 1 })
      s
    let s := recur check (i + 1) s
    -- for k in adj j (same, non-reversed order): covered[k]--; if (covered[k]==0) total_covered--;
    let s := (adj j).foldl
      (fun s k =>
        let c := bumpN s.covered k (-1)
        { s with covered := c
                 totalCovered := if c k = 0 then s.totalCovered - 1 else s.totalCovered })
      s
    let s := { s with D := s.D.dropLast }  -- D.remove_pop(j)
    (s, fixedList)

/-- The body of `BBTFixedOrderSolver::FindDominatingSet<check>(G, i)`
(bbt_fixed_order.cpp lines 167–237), including
`BBTFrameworkSolver::report_node`/`unreport_node` (bbt_framework.hpp
lines 83–102).  `recur` is the recursive call. -/
def foFindBody (adj : Nat → List Nat) (n : Nat) (maxDeg : Int) (p : FOParams)
    (recur : Bool → Nat → FOState → FOState) (check : Bool) (i : Nat)
    (s : FOState) : FOState :=
  -- report_node (depth_log[depth]++ and the res/mod tri-state).
  let depth := s.D.length
  let s := { s with depthLog := fun d => if d = depth then s.depthLog d + 1 else s.depthLog d }
  let rc : Int :=
    if check then
      if depth = p.resmodDepth then
        if (s.depthLog depth - 1) % p.resmodMod = p.resmodRes then 1 else 0
      else -1
    else 1
  if rc = 0 then s
  else if check ∧ rc = 1 then
    -- unreport_node and switch to the specialized copy.
    let s := { s with depthLog := fun d => if d = depth then s.depthLog d - 1 else s.depthLog d }
    recur false i s
  else
    if s.totalCovered = (n : Int) then
      -- record D, subject to mode bounds.
      if p.generateAll then
        if (s.D.length : Int) ≥ p.lower ∧ (s.D.length : Int) ≤ p.upper then
          { s with emitted := s.emitted ++ [s.D] }
        else s
      else
        if (s.D.length : Int) ≥ p.lower ∧ (s.D.length : Int) < (s.B.length : Int) then
          { s with B := s.D, emitted := s.emitted ++ [s.D] }
        else s
    else
      let i := foScanUncovered s.covered n i
      if i ≥ n then { s with error := true }
      else
        let minNeeded := Int.tdiv ((n : Int) - s.totalCovered + maxDeg) (maxDeg + 1)
        let minTotal := (s.D.length : Int) + minNeeded
        let prune :=
          if p.generateAll then
            minTotal > p.upper ∨ (n : Int) - s.totalFixed < minNeeded
          else
            minTotal ≥ (s.B.length : Int) ∨ (n : Int) - s.totalFixed < minNeeded
        if prune then s
        else
          -- i, then the uncovered unfixed neighbours, then the covered ones.
          let nbrs :=
            (if ¬s.fixed i then [i] else []) ++
            ((adj i).filter fun j => ¬s.fixed j ∧ s.covered j = 0 ∧ j ≠ i) ++
            ((adj i).filter fun j => ¬s.fixed j ∧ s.covered j ≠ 0)
          -- the branching loop (lines 227–230), threading fixed_list
          let st := nbrs.foldl (fun st j => foAddVertex recur adj check i j st) (s, [])
          -- for(q = num_fixed-1; q >= 0; q--){ fixed[fixed_list[q]] = 0; total_fixed--; }
          st.2.reverse.foldl
            (fun s v =>
              { s with fixed := fun w => if w = v then false else s.fixed w
                       totalFixed := s.totalFixed - 1 })
            st.1

/-- `FindDominatingSet` with fuel (structural recursion; exhausting the
fuel flags an error, which the theorems' runs never reach). -/
def foFind (adj : Nat → List Nat) (n : Nat) (maxDeg : Int) (p : FOParams) :
    Nat → Bool → Nat → FOState → FOState
  | 0, _, _, s => { s with error := true }
  | fuel + 1, check, i, s =>
    foFindBody adj n maxDeg p (foFind adj n maxDeg p fuel) check i s

/-- `BBTFixedOrderSolver::solve` (bbt_fixed_order.cpp lines 40–97).
`maxDeg0` is the value of the `max_deg` member before
`compute_max_deg` runs — the source never initializes it (lines
105–116 fold `max` into it starting from its previous contents), so it
is kept as a parameter; the theorems instantiate it with `0` and show
separately that the K₁ result does not depend on it. -/
def foSolve (adj0 : List (List Nat)) (forceIn forceOut : List Nat)
    (p : FOParams) (maxDeg0 : Int) (fuel : Nat) : FOState :=
  let n := adj0.length
  let adjL := (addLoops adj0).map sortDesc
  let adj : Nat → List Nat := fun v => adjL.getD v []
  let maxDeg := (List.range n).foldl (fun m i => max m ((adj i).length : Int)) maxDeg0
  let s : FOState :=
    { D := []
      B := (fixedInitB (n : Int) p.upper p.generateAll).elements
      covered := fun _ => 0
      fixed := fun _ => false
      totalCovered := 0
      totalFixed := 0
      depthLog := fun _ => 0
      emitted := []
      error := false }
  -- force_in: add to D and cover the neighbourhood (the fixed-order
  -- solver does not mark force_in vertices fixed).
  let s := forceIn.foldl
    (fun s v =>
      let s := { s with D := s.D ++ [v] }
      (adj v).foldl
        (fun s u =>
          { s with totalCovered := if s.covered u = 0 then s.totalCovered + 1 else s.totalCovered
                   covered := bumpN s.covered u 1 })
        s)
    s
  -- force_out: mark fixed.
  let s := forceOut.foldl
    (fun s v =>
      { s with fixed := fun w => if w = v then true else s.fixed w
               totalFixed := s.totalFixed + 1 })
    s
  foFind adj n maxDeg p fuel true 0 s

/-- The K₁ instance: one vertex, no edges (and no force sets). -/
def k1Adj : List (List Nat) := [[]]

/-- The embedded fixed-order bound formula
`(n - total_covered + max_deg)/(max_deg+1)` (bbt_fixed_order.cpp line
199). -/
def foMinNeeded (n totalCovered maxDeg : Int) : Int :=
  Int.tdiv (n - totalCovered + maxDeg) (maxDeg + 1)

/-- Whether a vertex list dominates the graph given by `adj` (with the
self-loop convention already applied by `addLoops`): every vertex is in
`D` or has a neighbour in `D`. -/
def isDominatingSet (adj0 : List (List Nat)) (D : List Nat) : Bool :=
  (List.range adj0.length).all fun v =>
    decide (v ∈ D) || (adj0.getD v []).any fun u => decide (u ∈ D)

/-- A concrete well-formed two-vertex `MDDStack` state (both vertices
undominated with mdd 1, so bucket 1 holds 2 and `max_mdd = 1`), used to
instantiate the pairing theorem below. -/
def c6State : MddState :=
  { values := fun _ => 1
    counts := fun d => if d = 1 then 2 else 0
    maxMdd := 1
    stack := [] }

/-! # Theorems -/

/-! ## Claim C9 -/

/-- Claim C9 as stated is false: it asserts `Graph.reset(n)` completes
without a graph-construction error for every `0 ≤ n ≤ MAX_VERTS`, but
at `n = MAX_VERTS = 1024` the source throws
(`if (new_size >= unidom::MAX_VERTS) throw GraphError(…)`). -/
theorem C9_counterexample :
    graphReset 1024 = none ∧ (0 : Int) ≤ 1024 ∧ (1024 : Int) ≤ MAX_VERTS := by
  refine ⟨rfl, by norm_num, by norm_num [MAX_VERTS]⟩

/-- Claim C9, amended: for `0 ≤ n`, `Graph.reset(n)` completes without
a graph-construction error iff `n < MAX_VERTS` (so graphs with up to
`MAX_VERTS − 1 = 1023` vertices are accepted), and the error is raised
exactly when `n ≥ MAX_VERTS`. -/
theorem C9_amended (n : Int) (hn : 0 ≤ n) :
    ((graphReset n).isSome ↔ n < MAX_VERTS) ∧
    (graphReset n = none ↔ n ≥ MAX_VERTS) := by
  unfold graphReset
  split_ifs with h <;> constructor <;> simp [MAX_VERTS] at h ⊢ <;> omega

/-- Witness for `C9_amended` at `n = 5`. -/
theorem C9_amended_witness :
    (0 : Int) ≤ 5 ∧
      (((graphReset 5).isSome ↔ (5 : Int) < MAX_VERTS) ∧
        (graphReset 5 = none ↔ (5 : Int) ≥ MAX_VERTS)) :=
  ⟨by norm_num, C9_amended 5 (by norm_num)⟩

/-! ## Claim C2 -/

/-- Claim C2 as stated is false: it asserts that after initialization
the sentinel `B` has size `n` whenever no upper bound below `n` was
configured; but the DD variants run `B.reset_full(n-1)`
(bbt_dd_variants.cpp line 72), so on an instance with `n = 2` vertices
and the default `total_upper_bound = MAX_VERTS` the sentinel has size
`1`, not `2`. -/
theorem C2_counterexample :
    vsGetSize (ddInitB 2 1024 false) = 1 ∧ (1 : Int) ≠ 2 ∧ ¬((1024 : Int) < 2) := by
  refine ⟨rfl, by norm_num, by norm_num⟩

/-- Claim C2, amended: immediately after initialization in `solve`, the
sentinel `B` has size `upper_bound + 1` in optimization mode when
`upper_bound < n` was configured; otherwise (optimization mode without
such a bound, or generation mode regardless of the configured bounds)
it has size `n` for the fixed-order solver and size `n − 1` for the DD
and MDD variants (whose `solve` bodies are identical in this respect,
bbt_dd_variants.cpp lines 71–75 and bbt_mdd_variants.cpp lines
74–78). -/
theorem C2_amended (n upper : Int) (generateAll : Bool) :
    vsGetSize (fixedInitB n upper generateAll) =
      (if ¬generateAll ∧ upper < n then upper + 1 else n) ∧
    vsGetSize (ddInitB n upper generateAll) =
      (if ¬generateAll ∧ upper < n then upper + 1 else n - 1) := by
  unfold fixedInitB ddInitB vsGetSize vsResetFull
  constructor <;> split <;> rfl

/-- Witness for `C2_amended` at `n = 2`, default bounds, optimization
mode. -/
theorem C2_amended_witness :
    vsGetSize (fixedInitB 2 1024 false) =
      (if ¬false ∧ (1024 : Int) < 2 then 1024 + 1 else 2) ∧
    vsGetSize (ddInitB 2 1024 false) =
      (if ¬false ∧ (1024 : Int) < 2 then 1024 + 1 else 2 - 1) :=
  C2_amended 2 1024 false

/-! ## Claim C4 -/

/-- `fixed_list` read out at indices `0, 1, …, num_fixed−1` is the list
itself. -/
theorem ddRestoreOrder_eq (l : List Nat) : ddRestoreOrder l = l := by
  unfold ddRestoreOrder
  induction l with
  | nil => rfl
  | cons a l ih =>
    have h1 : (a :: l).length = l.length + 1 := rfl
    rw [h1, List.range_succ_eq_map, List.map_cons, List.map_map]
    refine congrArg (a :: ·) ?_
    simpa [Function.comp_def] using ih

/-- Claim C4 as stated is false: it asserts every solver variant
restores the banned siblings in insertion order, but the MDD variants'
restoration loop (bbt_mdd_variants.cpp lines 457–460) runs
`q = num_fixed−1, …, 0`: with `fixed_list = [0, 1]` the calls go to
vertex 1 and then vertex 0. -/
theorem C4_counterexample :
    mddRestoreOrder [0, 1] = [1, 0] ∧ mddRestoreOrder [0, 1] ≠ [0, 1] := by
  refine ⟨rfl, by decide⟩

/-- Claim C4, amended: after the branching loop, the DD variants
restore the fixed-excluded siblings (by `add_candidate`) in exactly the
order they were banned — the documented quirk — while the MDD variants
(by `unexclude_dominator` then `add_candidate` per sibling) and the
fixed-order solver (clearing the `fixed` flags directly) restore them
in reverse order. -/
theorem C4_amended (l : List Nat) :
    ddRestoreOrder l = l ∧ mddRestoreOrder l = l.reverse ∧
    fixedRestoreOrder l = l.reverse := by
  refine ⟨ddRestoreOrder_eq l, ?_, ?_⟩
  · unfold mddRestoreOrder
    rw [List.map_reverse]
    exact congrArg List.reverse (ddRestoreOrder_eq l)
  · unfold fixedRestoreOrder
    rw [List.map_reverse]
    exact congrArg List.reverse (ddRestoreOrder_eq l)

/-- Witness for `C4_amended` on a two-element ban list. -/
theorem C4_amended_witness :
    ddRestoreOrder [0, 1] = [0, 1] ∧ mddRestoreOrder [0, 1] = [0, 1].reverse ∧
    fixedRestoreOrder [0, 1] = [0, 1].reverse :=
  C4_amended [0, 1]

/-! ## Claim C3 -/

/-- Claim C3, confirmed: at every reachable search state (where
`0 ≤ total_fixed` and `n < MAX_VERTS`, the latter because
`Graph::reset` rejects larger graphs), the DD bounds check fails
(`bounds_satisfied` returns `false`) and the MDD bounds check fails
(`evaluate_bounds` returns `0` or `-1`, i.e. not `1`) exactly when the
specification's §4.4.5 condition holds: in generation mode
`min_total > upper_bound` or `n − total_fixed < min_needed`, in
optimization mode `min_total ≥ |B|` or `n − total_fixed < min_needed`.
(The MDD check's early `min_needed ≥ MAX_VERTS` exit is subsumed: then
`n − total_fixed ≤ n < MAX_VERTS ≤ min_needed`.) -/
theorem C3_bounds_fail_iff (generateAll : Bool)
    (n totalFixed dSize bSize upper minNeeded : Int)
    (htf : 0 ≤ totalFixed) (hn : n < MAX_VERTS) :
    (bounds_satisfied generateAll n totalFixed dSize bSize upper minNeeded = false ↔
      specBoundsFail generateAll n totalFixed dSize bSize upper minNeeded) ∧
    (evaluate_bounds generateAll n totalFixed dSize bSize upper minNeeded ≠ 1 ↔
      specBoundsFail generateAll n totalFixed dSize bSize upper minNeeded) := by
  unfold bounds_satisfied evaluate_bounds specBoundsFail MAX_VERTS at *
  constructor
  · cases generateAll <;> simp <;> omega
  · cases generateAll <;> simp only [Bool.false_eq_true, if_false, if_true] <;>
      split_ifs <;> simp <;> omega

/-- Witness for `C3_bounds_fail_iff`: optimization mode, `n = 3`,
`total_fixed = 1`, `|D| = 1`, `|B| = 2`, `upper = 1024`,
`min_needed = 1` — here `min_total = 2 ≥ |B|`, so both checks fail. -/
theorem C3_bounds_fail_iff_witness :
    ((0 : Int) ≤ 1 ∧ (3 : Int) < MAX_VERTS) ∧
      (bounds_satisfied false 3 1 1 2 1024 1 = false ↔
        specBoundsFail false 3 1 1 2 1024 1) ∧
      (evaluate_bounds false 3 1 1 2 1024 1 ≠ 1 ↔
        specBoundsFail false 3 1 1 2 1024 1) :=
  ⟨⟨by norm_num, by norm_num [MAX_VERTS]⟩,
    C3_bounds_fail_iff false 3 1 1 2 1024 1 (by norm_num) (by norm_num [MAX_VERTS])⟩

/-! ## Claim C7 -/

/-- Generalized form of claim C7 over the running `count` accumulator:
the source walk returns `count₀` plus the greedy total when the greedy
walk succeeds, and `MAX_VERTS + 1` (discarding `count₀`) when it hits
rank 0 or the end of the list — which it only can with `m > 0`, since
a rank is only passed when `⌈m/d⌉ > u ≥ 0`, i.e. `m − d·u > 0`. -/
theorem cmtd_eq_greedy (ranks : List (Int × Int)) :
    ∀ m count : Int, 0 < m → (∀ p ∈ ranks, 0 ≤ p.1 ∧ 0 ≤ p.2) →
      count_minimum_to_dominate ranks m count =
        (match specGreedyDominate ranks m with
          | some k => count + k
          | none => MAX_VERTS + 1) := by
  induction ranks with
  | nil =>
    intro m count hm _
    simp [count_minimum_to_dominate, specGreedyDominate, hm]
  | cons p rest ih =>
    intro m count hm hall
    obtain ⟨deg, unfixed⟩ := p
    have hdeg : 0 ≤ deg := (hall (deg, unfixed) (List.mem_cons_self _ _)).1
    have hunf : 0 ≤ unfixed := (hall (deg, unfixed) (List.mem_cons_self _ _)).2
    by_cases hdz : deg = 0
    · simp [count_minimum_to_dominate, specGreedyDominate, hdz, hm]
    · have hdpos : 0 < deg := lt_of_le_of_ne hdeg (Ne.symm hdz)
      have hdivs : Int.tdiv (m + deg - 1) deg = Int.ediv (m + deg - 1) deg :=
        Int.tdiv_eq_ediv (by omega) hdeg
      by_cases hneed : Int.ediv (m + deg - 1) deg ≤ unfixed
      · simp [count_minimum_to_dominate, specGreedyDominate, hdz, hdivs, hneed]
      · have hgt : unfixed < Int.ediv (m + deg - 1) deg := lt_of_not_le hneed
        have hrem : 0 < m - deg * unfixed := by
          have h1 : unfixed + 1 ≤ Int.ediv (m + deg - 1) deg := hgt
          have h2 : (unfixed + 1) * deg ≤ m + deg - 1 :=
            (Int.le_ediv_iff_mul_le hdpos).mp h1
          nlinarith
      -- the recursive case of both walks
        have hrest : ∀ p ∈ rest, 0 ≤ p.1 ∧ 0 ≤ p.2 := fun p hp =>
          hall p (List.mem_cons_of_mem _ hp)
        have := ih (m - deg * unfixed) (count + unfixed) hrem hrest
        simp only [count_minimum_to_dominate, specGreedyDominate, hdz, if_false,
          hdivs, hneed] at *
        rw [this]
        cases hspec : specGreedyDominate rest (m - deg * unfixed) <;>
          simp [hspec] <;> ring

/-- Claim C7, confirmed: for every `m > 0` and every DegreePQ state
(embedded as the walked rank-node list, whose degrees and unfixed
counts are nonnegative), `count_minimum_to_dominate(m)` equals the
specification's greedy estimate, returning `MAX_VERTS + 1` exactly
when the greedy walk reaches rank 0 or the end of the rank list (which
it only does with `m > 0` still outstanding). -/
theorem C7_count_minimum_matches_greedy (ranks : List (Int × Int)) (m : Int)
    (hm : 0 < m) (hall : ∀ p ∈ ranks, 0 ≤ p.1 ∧ 0 ≤ p.2) :
    count_minimum_to_dominate ranks m 0 =
      (match specGreedyDominate ranks m with
        | some k => k
        | none => MAX_VERTS + 1) := by
  have := cmtd_eq_greedy ranks m 0 hm hall
  rw [this]
  cases specGreedyDominate ranks m <;> simp

/-- Witness for `C7_count_minimum_matches_greedy`: the state with rank
nodes `(3,1)` and `(2,2)` (walked highest rank first) and `m = 5`; the
greedy takes one vertex of rank 3 and one of rank 2. -/
theorem C7_witness :
    (0 : Int) < 5 ∧
      count_minimum_to_dominate [(3, 1), (2, 2)] 5 0 =
        (match specGreedyDominate [(3, 1), (2, 2)] 5 with
          | some k => k
          | none => MAX_VERTS + 1) :=
  ⟨by norm_num,
    C7_count_minimum_matches_greedy [(3, 1), (2, 2)] 5 (by norm_num) (by decide)⟩

/-! ## Claim C10 -/

/-- Fold invariant for the optimization-mode emission guard: the
accumulated emissions (newest first) are strictly increasing in size,
every emission is at least the current `|B|` and smaller than the
initial sentinel, and `|B|` never exceeds the initial sentinel. -/
theorem optEmitFold_inv (lower b0 : Int) (Ds : List (List Nat)) :
    ∀ b (accRev : List (List Nat)),
      (accRev.Pairwise fun a c => a.length < c.length) →
      (∀ x ∈ accRev, b ≤ (x.length : Int) ∧ (x.length : Int) < b0) →
      b ≤ b0 →
      ((Ds.foldl (optEmitStep lower) (b, accRev)).2.Pairwise
          fun a c => a.length < c.length) ∧
      (∀ x ∈ (Ds.foldl (optEmitStep lower) (b, accRev)).2,
          (Ds.foldl (optEmitStep lower) (b, accRev)).1 ≤ (x.length : Int) ∧
          (x.length : Int) < b0) ∧
      (Ds.foldl (optEmitStep lower) (b, accRev)).1 ≤ b0 := by
  induction Ds with
  | nil => intro b accRev h1 h2 h3; exact ⟨h1, h2, h3⟩
  | cons D rest ih =>
    intro b accRev h1 h2 h3
    rw [List.foldl_cons]
    unfold optEmitStep
    split_ifs with hg
    · refine ih _ _ ?_ ?_ ?_
      · refine List.Pairwise.cons ?_ h1
        intro c hc
        have := (h2 c hc).1
        omega
      · intro x hx
        rcases List.mem_cons.mp hx with h | h
        · subst h; exact ⟨le_refl _, lt_of_lt_of_le hg.2 h3⟩
        · exact ⟨le_of_lt (lt_of_lt_of_le hg.2 (h2 x h).1), (h2 x h).2⟩
      · exact le_trans (le_of_lt hg.2) h3
    · exact ih _ _ h1 h2 h3

/-- Claim C10, confirmed.  In optimization mode the only emission site
(and the only write to `B` after initialization) in all three solver
families is the guard `|D| ≥ lower ∧ |D| < |B|` followed by `B := D`;
running that guard over any sequence of candidate sets (hence over the
fully-covered states any solver variant reaches, in order) yields
emissions with strictly decreasing sizes, all smaller than the initial
sentinel; consequently, when anything was emitted, the set retained by
the `output_best` proxy — the last emission — is one of the emissions
and has minimum size among them. -/
theorem C10_emission_sizes_decrease (lower b0 : Int) (Ds : List (List Nat))
    (n : Nat) :
    ((optEmissions lower b0 Ds).Pairwise fun a c => c.length < a.length) ∧
    (∀ x ∈ optEmissions lower b0 Ds, (x.length : Int) < b0) ∧
    (optEmissions lower b0 Ds ≠ [] →
      outputBestRetained n (optEmissions lower b0 Ds) ∈ optEmissions lower b0 Ds ∧
      ∀ x ∈ optEmissions lower b0 Ds,
        (outputBestRetained n (optEmissions lower b0 Ds)).length ≤ x.length) := by
  obtain ⟨h1, h2, -⟩ :=
    optEmitFold_inv lower b0 Ds b0 [] List.Pairwise.nil (by simp) (le_refl _)
  set accRev := (Ds.foldl (optEmitStep lower) (b0, [])).2 with hacc
  have hemit : optEmissions lower b0 Ds = accRev.reverse := rfl
  refine ⟨?_, ?_, ?_⟩
  · rw [hemit, List.pairwise_reverse]
    exact h1
  · intro x hx
    rw [hemit, List.mem_reverse] at hx
    exact (h2 x hx).2
  · intro hne
    rw [hemit] at hne ⊢
    match haccv : accRev, h1, h2 with
    | [], _, _ => simp [haccv] at hne
    | h :: t, h1, h2 =>
      have hretained : outputBestRetained n ((h :: t).reverse) = h := by
        unfold outputBestRetained
        rw [List.getLast?_reverse]
        rfl
      rw [hretained]
      constructor
      · rw [List.mem_reverse]; exact List.mem_cons_self _ _
      · intro x hx
        rw [List.mem_reverse] at hx
        rcases List.mem_cons.mp hx with rfl | hxt
        · exact le_refl _
        · exact le_of_lt (List.rel_of_pairwise_cons h1 hxt)

/-- Witness for `C10_emission_sizes_decrease`: sentinel size 3, lower
bound 0, candidate sets `{0,2}, {0,1}, {1}` (the fully-covered states
the fixed-order solver reaches on the path P₃): emissions are
`{0,2}` then `{1}` and the retained set `{1}` is smallest. -/
theorem C10_witness :
    (optEmissions 0 3 [[0, 2], [0, 1], [1]] ≠ []) ∧
      ((optEmissions 0 3 [[0, 2], [0, 1], [1]]).Pairwise
          fun a c => c.length < a.length) ∧
      outputBestRetained 3 (optEmissions 0 3 [[0, 2], [0, 1], [1]]) ∈
        optEmissions 0 3 [[0, 2], [0, 1], [1]] :=
  ⟨by decide,
    (C10_emission_sizes_decrease 0 3 [[0, 2], [0, 1], [1]] 3).1,
    ((C10_emission_sizes_decrease 0 3 [[0, 2], [0, 1], [1]] 3).2.2 (by decide)).1⟩

/-! ## Claim C8 -/

/-- Reading back the neighbour block a vertex record wrote: succeeds
and consumes exactly the written neighbours. -/
theorem readNeighbours_roundtrip (adj : List Int) :
    ∀ rest, (∀ u ∈ adj, 0 ≤ u ∧ u < MAX_DEGREE) →
      readNeighbours adj.length (adj ++ rest) = some (adj, rest) := by
  induction adj with
  | nil => intro rest _; rfl
  | cons u adj ih =>
    intro rest h
    have hu := h u (List.mem_cons_self _ _)
    have hrec := ih rest fun w hw => h w (List.mem_cons_of_mem _ hw)
    show readNeighbours (adj.length + 1) (u :: (adj ++ rest)) = _
    unfold readNeighbours
    rw [if_neg (by push_neg; omega)]
    rw [hrec]
    rfl

/-- Reading back `n` vertex records written by `write_graph`. -/
theorem readVertices_roundtrip (g : List (List Int)) :
    ∀ rest,
      (∀ adj ∈ g, (adj.length : Int) < MAX_DEGREE) →
      (∀ adj ∈ g, ∀ u ∈ adj, 0 ≤ u ∧ u < MAX_DEGREE) →
      readVertices g.length
          ((g.flatMap fun adj => (adj.length : Int) :: adj) ++ rest) =
        some (g, rest) := by
  induction g with
  | nil => intro rest _ _; rfl
  | cons adj g ih =>
    intro rest hdeg hnb
    have hd := hdeg adj (List.mem_cons_self _ _)
    have hn := hnb adj (List.mem_cons_self _ _)
    have hih := ih rest (fun a ha => hdeg a (List.mem_cons_of_mem _ ha))
      (fun a ha => hnb a (List.mem_cons_of_mem _ ha))
    have hstream : (((adj :: g).flatMap fun a => (a.length : Int) :: a) ++ rest)
        = (adj.length : Int) ::
            (adj ++ ((g.flatMap fun a => (a.length : Int) :: a) ++ rest)) := by
      simp [List.append_assoc]
    rw [show (adj :: g).length = g.length + 1 from rfl, hstream]
    simp only [readVertices]
    rw [if_neg (by push_neg; constructor <;> [positivity; exact hd])]
    have htn : ((adj.length : Int)).toNat = adj.length := Int.toNat_natCast _
    rw [htn, readNeighbours_roundtrip adj _ hn]
    show Option.map _
        (readVertices g.length ((g.flatMap fun a => (a.length : Int) :: a) ++ rest)) = _
    rw [hih]
    rfl

/-- Claim C8, confirmed: for every graph satisfying the text-format
constraints (`n < MAX_VERTS`, each degree `< MAX_DEGREE`, each
neighbour index in `[0, MAX_DEGREE)`), `read_graph` applied to the
token stream `write_graph` produced succeeds and returns the same
vertex count and identical adjacency lists, neighbour sequences in the
same order. -/
theorem C8_write_read_roundtrip (g : List (List Int))
    (hn : (g.length : Int) < MAX_VERTS)
    (hdeg : ∀ adj ∈ g, (adj.length : Int) < MAX_DEGREE)
    (hnb : ∀ adj ∈ g, ∀ u ∈ adj, 0 ≤ u ∧ u < MAX_DEGREE) :
    read_graph (write_graph g) = some g := by
  unfold write_graph
  simp only [read_graph]
  rw [if_neg (by push_neg; constructor <;> [positivity; exact hn])]
  have htn : ((g.length : Int)).toNat = g.length := Int.toNat_natCast _
  rw [htn]
  have h := readVertices_roundtrip g [] hdeg hnb
  rw [List.append_nil] at h
  rw [h]
  rfl

/-- Witness for `C8_write_read_roundtrip` on the path P₃. -/
theorem C8_witness :
    read_graph (write_graph [[1], [0, 2], [1]]) = some [[1], [0, 2], [1]] :=
  C8_write_read_roundtrip [[1], [0, 2], [1]]
    (by norm_num [MAX_VERTS]) (by decide) (by decide)

/-! ## Claim C1 -/

/-- The `mdd_counts` array the MDDStack constructor builds for the K₁
instance holds the single vertex (whose uncovered degree, with its
self-loop, is `recompute_mdd(0) = 1`) in bucket 1 and nothing
anywhere else. -/
theorem k1_counts_eq (mm : Int) (d : Int) :
    (mddInit 1 (fun _ => 1) mm).counts d = if d = 1 then 1 else 0 := by
  have h1 : (mddInit 1 (fun _ => 1) mm).counts d =
      cardVal (fun u => if u < 1 then (1 : Int) else -1) 1 d := rfl
  have h2 : List.range 1 = [0] := by decide
  rw [h1]
  unfold cardVal
  rw [h2]
  by_cases h : d = 1
  · simp [List.filter, h]
  · have h' : ¬((1 : Int) = d) := fun hh => h hh.symm
    simp [List.filter, h', h]

/-- On K₁ the constructor's `max_mdd` loop inspects only bucket 0
(indices `< n = 1`), which is empty, so `max_mdd` keeps its prior
(indeterminate) contents `mm`. -/
theorem k1_maxMdd_eq (mm : Int) : (mddInit 1 (fun _ => 1) mm).maxMdd = mm := by
  have h2 : List.range 1 = [0] := by decide
  simp only [mddInit, h2, List.foldl_cons, List.foldl_nil]
  norm_num [cardVal, List.filter]

/-- `min_vertices_needed`'s bucket walk, for a counts array whose only
occupied bucket is 1 (with one vertex): the walk accumulates nothing
until bucket 1, takes one dominator there, and nothing after. -/
theorem mvn_walk_aux (counts : Int → Int) (h0 : counts 0 = 0)
    (h1 : counts 1 = 1) (hge : ∀ d : Nat, 2 ≤ d → counts (d : Int) = 0) :
    ∀ k : Nat,
      (List.range (k + 1)).foldl (mvnStep counts) (0, 0) =
        (0, if k = 0 then 0 else 1) := by
  intro k
  induction k with
  | zero =>
    have h2 : List.range 1 = [0] := by decide
    simp [h2, mvnStep, h0, mvnInner]
  | succ k ih =>
    rw [List.range_succ, List.foldl_append, ih, List.foldl_cons, List.foldl_nil]
    rcases Nat.eq_zero_or_pos k with rfl | hk
    · simp [mvnStep, h1, mvnInner]
    · have h2 : counts ((k : Int) + 1) = 0 := by
        have := hge (k + 1) (by omega)
        push_cast at this
        exact this
      have h3 : ¬(k = 0) := by omega
      have h4 : ¬(k + 1 = 0) := by omega
      simp [h3, h4, mvnStep, h2, mvnInner]

/-- For a counts array whose only occupied bucket is 1,
`min_vertices_needed` returns 0 or 1 whatever the (possibly
indeterminate) `max_mdd` value is. -/
theorem mvn_of_single_bucket (counts : Int → Int) (mm : Int)
    (h0 : counts 0 = 0) (h1 : counts 1 = 1)
    (hge : ∀ d : Nat, 2 ≤ d → counts (d : Int) = 0) :
    min_vertices_needed counts mm = 0 ∨ min_vertices_needed counts mm = 1 := by
  unfold min_vertices_needed
  rw [if_neg (by omega), mvn_walk_aux counts h0 h1 hge mm.toNat]
  rcases Nat.eq_zero_or_pos mm.toNat with h | h
  · simp [h]
  · simp [Nat.pos_iff_ne_zero.mp h]

/-- Claim C1 as stated is false: on K₁ in optimization mode the
fixed-order solver (run with the default settings and ample fuel)
passes no set at all to the output proxy — the root call is pruned,
because `min_total = 0 + ⌈1/(max_deg+1)⌉·… = 1 ≥ |B| = 1` — so in
particular it does not emit the unique dominating set `{0}`. -/
theorem C1_counterexample :
    (foSolve k1Adj [] [] (foDefaults false) 0 16).emitted = [] ∧
    [0] ∉ (foSolve k1Adj [] [] (foDefaults false) 0 16).emitted ∧
    (foSolve k1Adj [] [] (foDefaults false) 0 16).error = false := by
  refine ⟨by decide, by decide, by decide⟩

/-- Claim C1, amended: on K₁ in optimization mode no registered solver
variant emits any set.  The fixed-order solver's root call is pruned
(its emission trace is empty, with no error raised, and the pruning is
insensitive to the indeterminate initial `max_deg` member, since
`(1 − 0 + m) / (m + 1) = 1` for every `m ≥ 0`); the DD variants' root
`bounds_satisfied` is false (with the K₁ DPQ rank list `[(1,1)]`,
`count_minimum_to_dominate(1) = 1 ≥ |B| = 0`, the sentinel from
`B.reset_full(n−1)`); and the MDD variants' root `evaluate_bounds`
returns −1 for every value of the MDDStack's (indeterminate on K₁)
`max_mdd` member.  With the `output_best` proxy the reported final best
is the proxy's own initialization sentinel `{0,…,n−1} = {0}` of size 1,
which is the unique dominating set of K₁ (the empty set does not
dominate), so the reported size equals the domination number 1. -/
theorem C1_amended :
    (foSolve k1Adj [] [] (foDefaults false) 0 16).emitted = [] ∧
    (foSolve k1Adj [] [] (foDefaults false) 0 16).error = false ∧
    (∀ md : Int, 0 ≤ md → foMinNeeded 1 0 md = 1) ∧
    bounds_satisfied false 1 0 0 (vsGetSize (ddInitB 1 1024 false)) 1024
      (count_minimum_to_dominate [(1, 1)] 1 0) = false ∧
    (∀ mm : Int,
      evaluate_bounds false 1 0 0 (vsGetSize (ddInitB 1 1024 false)) 1024
        (min_vertices_needed (mddInit 1 (fun _ => 1) mm).counts
          (mddInit 1 (fun _ => 1) mm).maxMdd) = -1) ∧
    outputBestRetained 1 [] = [0] ∧
    ([0] : List Nat).length = 1 ∧
    isDominatingSet k1Adj [0] = true ∧
    isDominatingSet k1Adj [] = false := by
  refine ⟨by decide, by decide, ?_, by decide, ?_, by decide, by decide,
    by decide, by decide⟩
  · intro md hmd
    unfold foMinNeeded
    rw [Int.tdiv_eq_ediv (by omega) (by omega)]
    have h1 : (1 : Int) - 0 + md = md + 1 := by ring
    rw [h1, Int.ediv_self (by omega)]
  · intro mm
    rw [k1_maxMdd_eq mm]
    rcases mvn_of_single_bucket (mddInit 1 (fun _ => 1) mm).counts mm
        (by rw [k1_counts_eq]; norm_num) (by rw [k1_counts_eq]; norm_num)
        (fun d hd => by rw [k1_counts_eq]; rw [if_neg (by omega)]) with
      h | h <;> rw [h] <;> decide

/-- Witness for `C1_amended`, discharging its quantified conjuncts at
`max_deg = 0` and `max_mdd = 1`. -/
theorem C1_amended_witness :
    ((0 : Int) ≤ 0 ∧ foMinNeeded 1 0 0 = 1) ∧
      evaluate_bounds false 1 0 0 (vsGetSize (ddInitB 1 1024 false)) 1024
        (min_vertices_needed (mddInit 1 (fun _ => 1) 1).counts
          (mddInit 1 (fun _ => 1) 1).maxMdd) = -1 :=
  ⟨⟨by norm_num, C1_amended.2.2.1 0 (by norm_num)⟩, C1_amended.2.2.2.2.1 1⟩

/-! ## Claim C5 -/

theorem rnTakeWhile_append_of_all {α : Type} (p : α → Bool) (l₁ l₂ : List α)
    (h : ∀ x ∈ l₁, p x = true) :
    (l₁ ++ l₂).takeWhile p = l₁ ++ l₂.takeWhile p := by
  induction l₁ with
  | nil => simp
  | cons a l ih =>
    have ha := h a (List.mem_cons_self _ _)
    simp [List.takeWhile_cons, ha, ih fun x hx => h x (List.mem_cons_of_mem _ hx)]

theorem rnDropWhile_append_of_all {α : Type} (p : α → Bool) (l₁ l₂ : List α)
    (h : ∀ x ∈ l₁, p x = true) :
    (l₁ ++ l₂).dropWhile p = l₂.dropWhile p := by
  induction l₁ with
  | nil => simp
  | cons a l ih =>
    have ha := h a (List.mem_cons_self _ _)
    simp [List.dropWhile_cons, ha, ih fun x hx => h x (List.mem_cons_of_mem _ hx)]

theorem rnTakeWhile_eq_nil {α : Type} (p : α → Bool) (l : List α)
    (h : ∀ x ∈ l, p x = false) : l.takeWhile p = [] := by
  cases l with
  | nil => rfl
  | cons a l => simp [List.takeWhile_cons, h a (List.mem_cons_self _ _)]

theorem rnTakeWhile_eq_self {α : Type} (p : α → Bool) (l : List α)
    (h : ∀ x ∈ l, p x = true) : l.takeWhile p = l := by
  induction l with
  | nil => rfl
  | cons a l ih =>
    simp [List.takeWhile_cons, h a (List.mem_cons_self _ _),
      ih fun x hx => h x (List.mem_cons_of_mem _ hx)]

theorem rnDropWhile_eq_self {α : Type} (p : α → Bool) (l : List α)
    (h : ∀ x ∈ l, p x = false) : l.dropWhile p = l := by
  cases l with
  | nil => rfl
  | cons a l => simp [List.dropWhile_cons, h a (List.mem_cons_self _ _)]

theorem rnDropWhile_head_not {α : Type} (p : α → Bool) (l : List α) :
    ∀ b B', l.dropWhile p = b :: B' → p b = false := by
  induction l with
  | nil => intro b B' h; simp at h
  | cons a l ih =>
    intro b B' h
    rw [List.dropWhile_cons] at h
    by_cases hpa : p a
    · rw [if_pos hpa] at h
      exact ih b B' h
    · rw [if_neg hpa] at h
      cases h
      simpa using hpa

/-- `rnInsertF` splits the list at the boundary between keys `≤ d` and
the rest. -/
theorem rnInsertF_split (u d : Nat) (l : List (Nat × Nat)) :
    rnInsertF u d l =
      l.takeWhile (fun p => decide (p.2 ≤ d)) ++
        (u, d) :: l.dropWhile (fun p => decide (p.2 ≤ d)) := by
  induction l with
  | nil => rfl
  | cons x xs ih =>
    by_cases h : x.2 ≤ d
    · simp [rnInsertF, h, List.takeWhile_cons, List.dropWhile_cons, ih]
    · simp [rnInsertF, h, List.takeWhile_cons, List.dropWhile_cons]

/-- The tail scan of `rnInsert`, spelled out: the lets reduce
definitionally. -/
theorem rnInsert_def (l : List (Nat × Nat)) (u d : Nat) :
    rnInsert l u d =
      (l.reverse.dropWhile fun p => decide (d < p.2)).reverse ++
        (u, d) :: (l.reverse.takeWhile fun p => decide (d < p.2)).reverse := rfl

/-- On a list kept in nondecreasing key order, the tail scan of
`rnInsert` finds the same position as the head scan of `rnInsertF`. -/
theorem rnInsert_eq_insertF (u d : Nat) (l : List (Nat × Nat))
    (hs : l.Pairwise fun a b => a.2 ≤ b.2) :
    rnInsert l u d = rnInsertF u d l := by
  obtain ⟨A, B, hTake, hDrop, hsplit⟩ :
      ∃ A B, l.takeWhile (fun p => decide (p.2 ≤ d)) = A ∧
        l.dropWhile (fun p => decide (p.2 ≤ d)) = B ∧ A ++ B = l :=
    ⟨_, _, rfl, rfl, List.takeWhile_append_dropWhile _ _⟩
  have hAall : ∀ x ∈ A, x.2 ≤ d := fun x hx => by
    have := List.mem_takeWhile_imp (hTake ▸ hx)
    simpa using this
  have hBall : ∀ x ∈ B, d < x.2 := by
    intro x hx
    cases hBv : B with
    | nil => rw [hBv] at hx; simp at hx
    | cons b B' =>
      rw [hBv] at hx
      have hpb : ¬b.2 ≤ d := by
        have := rnDropWhile_head_not (fun p => decide (p.2 ≤ d)) l b B'
          (by rw [hDrop, hBv])
        simpa using this
      have hpw : (b :: B').Pairwise fun a c => a.2 ≤ c.2 := by
        rw [← hBv, ← hDrop]
        exact hs.sublist (List.dropWhile_sublist _)
      rcases List.mem_cons.mp hx with rfl | hx'
      · omega
      · have := List.rel_of_pairwise_cons hpw hx'
        omega
  have h1 : ((A ++ B).reverse.takeWhile fun p => decide (d < p.2)) =
      B.reverse := by
    rw [List.reverse_append,
      rnTakeWhile_append_of_all _ _ _
        (fun x hx => by simpa using hBall x (List.mem_reverse.mp hx)),
      rnTakeWhile_eq_nil _ _
        (fun x hx => by simpa using not_lt.mpr (hAall x (List.mem_reverse.mp hx))),
      List.append_nil]
  have h2 : ((A ++ B).reverse.dropWhile fun p => decide (d < p.2)) =
      A.reverse := by
    rw [List.reverse_append,
      rnDropWhile_append_of_all _ _ _
        (fun x hx => by simpa using hBall x (List.mem_reverse.mp hx)),
      rnDropWhile_eq_self _ _
        (fun x hx => by simpa using not_lt.mpr (hAall x (List.mem_reverse.mp hx)))]
  rw [rnInsert_def, rnInsertF_split, hTake, hDrop, ← hsplit, h1, h2,
    List.reverse_reverse, List.reverse_reverse]

/-- Every node of a degree class carries that degree as its key. -/
theorem rnBucket_key (nbrs : List Nat) (fixed : Nat → Bool) (udeg : Nat → Nat)
    (d : Nat) : ∀ x ∈ rnBucket nbrs fixed udeg d, x.2 = d := by
  intro x hx
  obtain ⟨u, -, rfl⟩ := List.mem_map.mp hx
  rfl

/-- A node's first component is an unfixed neighbour with the matching
uncovered degree. -/
theorem rnBucket_mem (nbrs : List Nat) (fixed : Nat → Bool) (udeg : Nat → Nat)
    (d : Nat) : ∀ x ∈ rnBucket nbrs fixed udeg d,
      x.1 ∈ nbrs ∧ fixed x.1 = false ∧ udeg x.1 = d := by
  intro x hx
  obtain ⟨u, hu, rfl⟩ := List.mem_map.mp hx
  have h1 := List.mem_filter.mp hu
  have h2 := List.mem_filter.mp h1.1
  refine ⟨h2.1, by simpa using h2.2, by simpa using h1.2⟩

/-- Extending the neighbour iteration by one more neighbour `u`. -/
theorem rnBucket_snoc (nbrs : List Nat) (fixed : Nat → Bool) (udeg : Nat → Nat)
    (d u : Nat) :
    rnBucket (nbrs ++ [u]) fixed udeg d =
      rnBucket nbrs fixed udeg d ++
        (if fixed u = false ∧ udeg u = d then [(u, d)] else []) := by
  unfold rnBucket
  rw [List.filter_append, List.filter_append, List.map_append]
  congr 1
  by_cases h1 : fixed u <;> by_cases h2 : udeg u = d <;>
    simp [List.filter, h1, h2]

theorem rnFlatMap_congr {α β : Type} {f g : α → List β} (l : List α)
    (h : ∀ d ∈ l, f d = g d) : l.flatMap f = l.flatMap g := by
  induction l with
  | nil => rfl
  | cons a l ih =>
    rw [List.flatMap_cons, List.flatMap_cons, h a (List.mem_cons_self _ _),
      ih fun d hd => h d (List.mem_cons_of_mem _ hd)]

theorem rnBuckets_nil (fixed : Nat → Bool) (udeg : Nat → Nat) (ds : List Nat) :
    rnBuckets [] fixed udeg ds = [] := by
  induction ds with
  | nil => rfl
  | cons d ds ih =>
    rw [rnBuckets, List.flatMap_cons] at *
    rw [ih]
    rfl

theorem rnBuckets_snoc_fixed (nbrs : List Nat) (fixed : Nat → Bool)
    (udeg : Nat → Nat) (ds : List Nat) (u : Nat) (hu : fixed u = true) :
    rnBuckets (nbrs ++ [u]) fixed udeg ds = rnBuckets nbrs fixed udeg ds := by
  refine rnFlatMap_congr ds fun d _ => ?_
  rw [rnBucket_snoc]
  simp [hu]

theorem rnPairwise_of_key (L : List (Nat × Nat)) (d : Nat)
    (h : ∀ x ∈ L, x.2 = d) : L.Pairwise fun a b => a.2 ≤ b.2 := by
  induction L with
  | nil => exact List.Pairwise.nil
  | cons x L ih =>
    refine List.Pairwise.cons (fun y hy => ?_)
      (ih fun y hy => h y (List.mem_cons_of_mem _ hy))
    rw [h x (List.mem_cons_self _ _), h y (List.mem_cons_of_mem _ hy)]

theorem rnBuckets_key_mem (nbrs : List Nat) (fixed : Nat → Bool)
    (udeg : Nat → Nat) (ds : List Nat) :
    ∀ x ∈ rnBuckets nbrs fixed udeg ds, x.2 ∈ ds ∧ fixed x.1 = false ∧
      udeg x.1 = x.2 := by
  intro x hx
  obtain ⟨d, hd, hxd⟩ := List.mem_flatMap.mp hx
  have hk := rnBucket_key nbrs fixed udeg d x hxd
  have hm := rnBucket_mem nbrs fixed udeg d x hxd
  exact ⟨hk ▸ hd, hm.2.1, hk ▸ hm.2.2⟩

theorem rnBuckets_sorted (nbrs : List Nat) (fixed : Nat → Bool)
    (udeg : Nat → Nat) (ds : List Nat) (hp : ds.Pairwise (· < ·)) :
    (rnBuckets nbrs fixed udeg ds).Pairwise fun a b => a.2 ≤ b.2 := by
  induction ds with
  | nil => exact List.Pairwise.nil
  | cons d ds ih =>
    rw [rnBuckets, List.flatMap_cons]
    rw [List.pairwise_append]
    refine ⟨rnPairwise_of_key _ d (rnBucket_key nbrs fixed udeg d), ?_, ?_⟩
    · exact ih (List.Pairwise.sublist (List.sublist_cons_self _ _) hp)
    · intro a ha b hb
      rw [rnBucket_key nbrs fixed udeg d a ha]
      have hbk := rnBuckets_key_mem nbrs fixed udeg ds b hb
      have := List.rel_of_pairwise_cons hp hbk.1
      omega

theorem rnInsertF_append_low (u d : Nat) (B rest : List (Nat × Nat))
    (h : ∀ x ∈ B, x.2 ≤ d) :
    rnInsertF u d (B ++ rest) = B ++ rnInsertF u d rest := by
  induction B with
  | nil => simp
  | cons x B ih =>
    rw [List.cons_append]
    show rnInsertF u d (x :: (B ++ rest)) = _
    rw [rnInsertF, if_pos (h x (List.mem_cons_self _ _)),
      ih fun y hy => h y (List.mem_cons_of_mem _ hy)]
    rfl

theorem rnInsertF_front (u d : Nat) (rest : List (Nat × Nat))
    (h : ∀ x ∈ rest, d < x.2) : rnInsertF u d rest = (u, d) :: rest := by
  cases rest with
  | nil => rfl
  | cons x xs =>
    rw [rnInsertF, if_neg (by have := h x (List.mem_cons_self _ _); omega)]

/-- Inserting a node for an unfixed neighbour `u` with degree
`d = udeg u` into the bucket structure appends it to the end of its
degree class. -/
theorem rnStep (nbrs : List Nat) (fixed : Nat → Bool) (udeg : Nat → Nat)
    (u : Nat) (hu : fixed u = false) :
    ∀ ds : List Nat, ds.Pairwise (· < ·) → udeg u ∈ ds →
      rnInsertF u (udeg u) (rnBuckets nbrs fixed udeg ds) =
        rnBuckets (nbrs ++ [u]) fixed udeg ds := by
  intro ds
  induction ds with
  | nil => intro _ h; exact absurd h (List.not_mem_nil _)
  | cons e ds ih =>
    intro hp hmem
    rw [rnBuckets, List.flatMap_cons, rnBuckets, List.flatMap_cons]
    rcases lt_trichotomy e (udeg u) with hlt | heq | hgt
    · have hlow : ∀ x ∈ rnBucket nbrs fixed udeg e, x.2 ≤ udeg u := fun x hx => by
        rw [rnBucket_key nbrs fixed udeg e x hx]; omega
      rw [rnInsertF_append_low _ _ _ _ hlow]
      have hdds : udeg u ∈ ds := by
        rcases List.mem_cons.mp hmem with h | h
        · omega
        · exact h
      rw [show (ds.flatMap (rnBucket nbrs fixed udeg)) = rnBuckets nbrs fixed udeg ds from rfl,
        ih (List.Pairwise.sublist (List.sublist_cons_self _ _) hp) hdds]
      rw [rnBucket_snoc, if_neg (by intro hh; omega), List.append_nil]
      rfl
    · have hlow : ∀ x ∈ rnBucket nbrs fixed udeg e, x.2 ≤ udeg u := fun x hx => by
        rw [rnBucket_key nbrs fixed udeg e x hx]; omega
      rw [rnInsertF_append_low _ _ _ _ hlow]
      have hhigh : ∀ x ∈ ds.flatMap (rnBucket nbrs fixed udeg), udeg u < x.2 := by
        intro x hx
        have hbk := rnBuckets_key_mem nbrs fixed udeg ds x hx
        have := List.rel_of_pairwise_cons hp hbk.1
        omega
      rw [rnInsertF_front _ _ _ hhigh]
      rw [rnBucket_snoc, if_pos ⟨hu, heq.symm⟩]
      have hrest : ds.flatMap (rnBucket (nbrs ++ [u]) fixed udeg) =
          ds.flatMap (rnBucket nbrs fixed udeg) := by
        refine rnFlatMap_congr ds fun d hd => ?_
        rw [rnBucket_snoc]
        have := List.rel_of_pairwise_cons hp hd
        rw [if_neg (by intro hh; omega), List.append_nil]
      rw [hrest, heq, List.append_assoc]
      rfl
    · exfalso
      rcases List.mem_cons.mp hmem with h | h
      · omega
      · have := List.rel_of_pairwise_cons hp h
        omega

/-- The insertion loop of `rank_neighbours` builds exactly the
concatenation of the degree classes in increasing degree order. -/
theorem rnBuild_eq (fixed : Nat → Bool) (udeg : Nat → Nat) (ds : List Nat)
    (hp : ds.Pairwise (· < ·)) :
    ∀ nbrs : List Nat, (∀ u ∈ nbrs, fixed u = false → udeg u ∈ ds) →
      rnBuild nbrs fixed udeg = rnBuckets nbrs fixed udeg ds := by
  intro nbrs
  induction nbrs using List.reverseRecOn with
  | nil => intro _; rw [rnBuckets_nil]; rfl
  | append_singleton l u ih =>
    intro hin
    have hbuild : rnBuild (l ++ [u]) fixed udeg =
        (if fixed u then rnBuild l fixed udeg
         else rnInsert (rnBuild l fixed udeg) u (udeg u)) := by
      unfold rnBuild
      rw [List.foldl_append, List.foldl_cons, List.foldl_nil]
    have hihv := ih fun v hv => hin v (List.mem_append_left _ hv)
    by_cases hf : fixed u
    · rw [hbuild, if_pos hf, hihv, rnBuckets_snoc_fixed _ _ _ _ _ hf]
    · rw [hbuild, if_neg hf, hihv,
        rnInsert_eq_insertF _ _ _ (rnBuckets_sorted _ _ _ _ hp),
        rnStep l fixed udeg u (Bool.not_eq_true _ ▸ hf) ds hp
          (hin u (List.mem_append_right _ (List.mem_cons_self _ _))
            (Bool.not_eq_true _ ▸ hf))]

/-- Claim C5 as stated is false for the descending (maxUCD) rule: with
two unfixed neighbours of identical uncovered degree, iterated in the
order `[1, 2]`, the code emits `[2, 1]` (the tail-to-head walk visits
the most recently inserted node of the degree class first), while the
claimed output — descending with ties in insertion order — is
`[1, 2]`. -/
theorem C5_counterexample :
    rank_neighbours true [1, 2] (fun _ => false) (fun _ => 2) = [2, 1] ∧
    specRankDesc [1, 2] (fun _ => false) (fun _ => 2) 2 = [1, 2] ∧
    ([2, 1] : List Nat) ≠ [1, 2] := by
  refine ⟨by decide, by decide, by decide⟩

/-- Claim C5, amended: at a reachable call (where every unfixed
candidate neighbour has nonzero uncovered degree, bounded by the DPQ's
maximum degree `maxd`), `rank_neighbours` produces exactly the unfixed
candidate neighbours sorted by uncovered degree — ascending with ties
in iteration (insertion) order for the minUCD rule, but descending
with ties in *reverse* iteration order for the maxUCD rule — and
neighbours with uncovered degree 0 are omitted (vacuously, as none
occur at a reachable call). -/
theorem C5_amended (nbrs : List Nat) (fixed : Nat → Bool) (udeg : Nat → Nat)
    (maxd : Nat)
    (hpos : ∀ u ∈ nbrs, fixed u = false → 0 < udeg u)
    (hbound : ∀ u ∈ nbrs, fixed u = false → udeg u ≤ maxd) :
    rank_neighbours false nbrs fixed udeg = specRankAsc nbrs fixed udeg maxd ∧
    rank_neighbours true nbrs fixed udeg =
      specRankDescRevTies nbrs fixed udeg maxd := by
  have hp : (List.range (maxd + 1)).Pairwise (· < ·) := List.pairwise_lt_range _
  have hin : ∀ u ∈ nbrs, fixed u = false → udeg u ∈ List.range (maxd + 1) :=
    fun u hu hf => List.mem_range.mpr (by have := hbound u hu hf; omega)
  have hbuild := rnBuild_eq fixed udeg (List.range (maxd + 1)) hp nbrs hin
  have hkeys : ∀ x ∈ rnBuckets nbrs fixed udeg (List.range (maxd + 1)),
      (decide (x.2 ≠ 0)) = true := by
    intro x hx
    have hbk := rnBuckets_key_mem nbrs fixed udeg _ x hx
    obtain ⟨d, hd, hxd⟩ := List.mem_flatMap.mp hx
    have hm := rnBucket_mem nbrs fixed udeg d x hxd
    have := hpos x.1 hm.1 hbk.2.1
    simp
    omega
  have hmapbucket : ∀ d : Nat,
      (rnBucket nbrs fixed udeg d).map Prod.fst =
        (nbrs.filter fun u => ¬fixed u).filter fun u => udeg u = d := by
    intro d
    unfold rnBucket
    rw [List.map_map]
    simp [Function.comp_def]
  constructor
  · show ((rnBuild nbrs fixed udeg).takeWhile fun p => decide (p.2 ≠ 0)).map
        Prod.fst = _
    rw [hbuild, rnTakeWhile_eq_self _ _ hkeys]
    rw [rnBuckets, List.map_flatMap]
    refine rnFlatMap_congr _ fun d hd => ?_
    by_cases hd0 : d = 0
    · subst hd0
      have hempty : rnBucket nbrs fixed udeg 0 = [] := by
        unfold rnBucket
        rw [List.map_eq_nil_iff, List.filter_eq_nil_iff]
        intro u hu
        have h1 := List.mem_filter.mp hu
        have := hpos u h1.1 (by simpa using h1.2)
        simp
        omega
      rw [hempty]
      simp [specRankAsc]
    · rw [hmapbucket d]
      simp [hd0]
  · show (((rnBuild nbrs fixed udeg).reverse.takeWhile fun p =>
        decide (p.2 ≠ 0)).map Prod.fst) = _
    rw [hbuild, rnTakeWhile_eq_self _ _
        (fun x hx => hkeys x (List.mem_reverse.mp hx))]
    rw [rnBuckets, List.reverse_flatMap, List.map_flatMap]
    refine rnFlatMap_congr _ fun d hd => ?_
    by_cases hd0 : d = 0
    · subst hd0
      have hempty : rnBucket nbrs fixed udeg 0 = [] := by
        unfold rnBucket
        rw [List.map_eq_nil_iff, List.filter_eq_nil_iff]
        intro u hu
        have h1 := List.mem_filter.mp hu
        have := hpos u h1.1 (by simpa using h1.2)
        simp
        omega
      rw [Function.comp_apply, hempty]
      simp [specRankDescRevTies]
    · rw [Function.comp_apply, List.map_reverse, hmapbucket d]
      simp [hd0]

/-- Witness for `C5_amended`: pivot neighbours `[5, 6, 7]`, vertex 6
fixed, degrees 2 and 1. -/
theorem C5_amended_witness :
    rank_neighbours false [5, 6, 7]
        (fun u => decide (u = 6)) (fun u => if u = 5 then 2 else 1) =
      specRankAsc [5, 6, 7] (fun u => decide (u = 6))
        (fun u => if u = 5 then 2 else 1) 3 ∧
    rank_neighbours true [5, 6, 7]
        (fun u => decide (u = 6)) (fun u => if u = 5 then 2 else 1) =
      specRankDescRevTies [5, 6, 7] (fun u => decide (u = 6))
        (fun u => if u = 5 then 2 else 1) 3 :=
  C5_amended [5, 6, 7] (fun u => decide (u = 6))
    (fun u => if u = 5 then 2 else 1) 3 (by decide) (by decide)

/-! ## Claim C6 -/

theorem bump_apply (f : Int → Int) (i delta j : Int) :
    bump f i delta j = if j = i then f j + delta else f j := rfl

theorem setVal_apply (f : Nat → Int) (u : Nat) (x : Int) (w : Nat) :
    setVal f u x w = if w = u then x else f w := rfl

/-- A bump and its inverse cancel. -/
theorem bump_cancel (f : Int → Int) (i delta : Int) :
    bump (bump f i delta) i (-delta) = f := by
  funext j
  simp only [bump]
  split <;> ring

/-- The `mdd_counts[i]--` / `mdd_counts[i]++` pair cancels. -/
theorem bump_cancel_neg_one (f : Int → Int) (i : Int) :
    bump (bump f i (-1)) i 1 = f := by
  have h := bump_cancel f i (-1)
  simpa using h

/-- Distinct-index bumps commute. -/
theorem bump_comm (f : Int → Int) (i j a b : Int) :
    bump (bump f i a) j b = bump (bump f j b) i a := by
  funext k
  simp only [bump]
  by_cases h1 : k = i <;> by_cases h2 : k = j <;> simp [h1, h2] <;>
    split_ifs <;> ring

/-- Overwriting a vertex value twice keeps only the second write. -/
theorem setVal_setVal (f : Nat → Int) (u : Nat) (x y : Int) :
    setVal (setVal f u x) u y = setVal f u y := by
  funext w
  simp only [setVal]
  split <;> rfl

/-- Restoring a vertex's original value undoes its update. -/
theorem setVal_restore (f : Nat → Int) (u : Nat) (x : Int) :
    setVal (setVal f u x) u (f u) = f := by
  funext w
  by_cases h : w = u
  · subst h; simp [setVal]
  · simp [setVal, h]

theorem setVal_ne (f : Nat → Int) (u : Nat) (x : Int) (w : Nat) (h : w ≠ u) :
    setVal f u x w = f w := by
  simp [setVal, h]

/-- `restoreRow` over a concatenation: restore the first-stored (i.e.
last-pushed) entries first. -/
theorem restoreRow_append (A B : List (Nat × Int))
    (st : (Nat → Int) × (Int → Int) × Int) :
    restoreRow (A ++ B) st = restoreRow B (restoreRow A st) := by
  obtain ⟨v, c, h⟩ := st
  simp only [restoreRow, List.foldl_append]

theorem restoreRow_nil (st : (Nat → Int) × (Int → Int) × Int) :
    restoreRow [] st = st := by
  obtain ⟨v, c, h⟩ := st
  rfl

theorem restoreRow_cons (e : Nat × Int) (r : List (Nat × Int))
    (st : (Nat → Int) × (Int → Int) × Int) :
    restoreRow (e :: r) st =
      restoreRow r
        (setVal st.1 e.1 e.2,
         bump (if st.1 e.1 = INVALID_MDD then st.2.1
               else bump st.2.1 (st.1 e.1) (-1)) e.2 1,
         max st.2.2 e.2) := by
  obtain ⟨v, c, h⟩ := st
  rfl

/-- The `highest_new_mdd` accumulator of the restoration loop is the
running maximum of the restored values. -/
theorem restoreRow_highest (r : List (Nat × Int)) :
    ∀ st : (Nat → Int) × (Int → Int) × Int,
      (restoreRow r st).2.2 = r.foldl (fun h e => max h e.2) st.2.2 := by
  induction r with
  | nil => intro st; rw [restoreRow_nil]; rfl
  | cons e r ih =>
    intro st
    rw [restoreRow_cons, List.foldl_cons, ih]

/-- The restoration loop only rewrites vertices that appear among the
entries. -/
theorem restoreRow_values_ne (r : List (Nat × Int)) :
    ∀ st : (Nat → Int) × (Int → Int) × Int, ∀ w : Nat,
      (∀ e ∈ r, e.1 ≠ w) → (restoreRow r st).1 w = st.1 w := by
  induction r with
  | nil => intro st w _; rw [restoreRow_nil]
  | cons e r ih =>
    intro st w h
    rw [restoreRow_cons, ih _ _ fun e' he' => h e' (List.mem_cons_of_mem _ he')]
    exact setVal_ne _ _ _ _ fun hw => h e (List.mem_cons_self _ _) hw.symm

/-- Unfolding `addDomLoop1`: skipped neighbour (already INVALID). -/
theorem addDomLoop1_cons_skip (u : Nat) (rest : List Nat)
    (values : Nat → Int) (counts : Int → Int) (row : List (Nat × Int))
    (h : values u = INVALID_MDD) :
    addDomLoop1 (u :: rest) (values, counts, row) =
      addDomLoop1 rest (values, counts, row) := by
  simp [addDomLoop1, h]

/-- Unfolding `addDomLoop1`: a neighbour whose MDD is cleared. -/
theorem addDomLoop1_cons_step (u : Nat) (rest : List Nat)
    (values : Nat → Int) (counts : Int → Int) (row : List (Nat × Int))
    (h : values u ≠ INVALID_MDD) :
    addDomLoop1 (u :: rest) (values, counts, row) =
      addDomLoop1 rest
        (setVal values u INVALID_MDD, bump counts (values u) (-1),
         (u, values u) :: row) := by
  simp [addDomLoop1, h]

theorem addDomLoop1_nil (st : (Nat → Int) × (Int → Int) × List (Nat × Int)) :
    addDomLoop1 [] st = st := by
  obtain ⟨v, c, r⟩ := st
  rfl

/-- Unfolding `addDomLoop2`: undominated vertex whose MDD is
unchanged. -/
theorem addDomLoop2_cons_skip (u : Nat) (rest : List Nat)
    (recompute : Nat → Int)
    (values : Nat → Int) (counts : Int → Int) (row : List (Nat × Int))
    (h : values u = recompute u) :
    addDomLoop2 (u :: rest) recompute (values, counts, row) =
      addDomLoop2 rest recompute (values, counts, row) := by
  simp [addDomLoop2, h]

/-- Unfolding `addDomLoop2`: undominated vertex whose MDD changed. -/
theorem addDomLoop2_cons_step (u : Nat) (rest : List Nat)
    (recompute : Nat → Int)
    (values : Nat → Int) (counts : Int → Int) (row : List (Nat × Int))
    (h : values u ≠ recompute u) :
    addDomLoop2 (u :: rest) recompute (values, counts, row) =
      addDomLoop2 rest recompute
        (setVal values u (recompute u),
         bump (bump counts (values u) (-1)) (recompute u) 1,
         (u, values u) :: row) := by
  simp [addDomLoop2, h]

theorem addDomLoop2_nil (recompute : Nat → Int)
    (st : (Nat → Int) × (Int → Int) × List (Nat × Int)) :
    addDomLoop2 [] recompute st = st := by
  obtain ⟨v, c, r⟩ := st
  rfl

/-- Unfolding `exclDomLoop`: dominated neighbour, skipped. -/
theorem exclDomLoop_cons_skip1 (u : Nat) (rest : List Nat)
    (undomContains : Nat → Bool) (recompute : Nat → Int)
    (values : Nat → Int) (counts : Int → Int) (row : List (Nat × Int))
    (h : undomContains u = false) :
    exclDomLoop (u :: rest) undomContains recompute (values, counts, row) =
      exclDomLoop rest undomContains recompute (values, counts, row) := by
  simp [exclDomLoop, h]

/-- Unfolding `exclDomLoop`: undominated neighbour with unchanged
MDD, skipped. -/
theorem exclDomLoop_cons_skip2 (u : Nat) (rest : List Nat)
    (undomContains : Nat → Bool) (recompute : Nat → Int)
    (values : Nat → Int) (counts : Int → Int) (row : List (Nat × Int))
    (h1 : undomContains u = true) (h2 : recompute u = values u) :
    exclDomLoop (u :: rest) undomContains recompute (values, counts, row) =
      exclDomLoop rest undomContains recompute (values, counts, row) := by
  simp [exclDomLoop, h1, h2]

/-- Unfolding `exclDomLoop`: undominated neighbour whose MDD
changed. -/
theorem exclDomLoop_cons_step (u : Nat) (rest : List Nat)
    (undomContains : Nat → Bool) (recompute : Nat → Int)
    (values : Nat → Int) (counts : Int → Int) (row : List (Nat × Int))
    (h1 : undomContains u = true) (h2 : recompute u ≠ values u) :
    exclDomLoop (u :: rest) undomContains recompute (values, counts, row) =
      exclDomLoop rest undomContains recompute
        (setVal values u (recompute u),
         bump (bump counts (values u) (-1)) (recompute u) 1,
         (u, values u) :: row) := by
  simp [exclDomLoop, h1, h2]

theorem exclDomLoop_nil (undomContains : Nat → Bool) (recompute : Nat → Int)
    (st : (Nat → Int) × (Int → Int) × List (Nat × Int)) :
    exclDomLoop [] undomContains recompute st = st := by
  obtain ⟨v, c, r⟩ := st
  rfl

/-- The entry rows the loops build do not depend on previously pushed
entries: a nonempty initial row just rides along underneath. -/
theorem addDomLoop1_shift (nbrs : List Nat) :
    ∀ (values : Nat → Int) (counts : Int → Int) (row0 : List (Nat × Int)),
      addDomLoop1 nbrs (values, counts, row0) =
        ((addDomLoop1 nbrs (values, counts, [])).1,
         (addDomLoop1 nbrs (values, counts, [])).2.1,
         (addDomLoop1 nbrs (values, counts, [])).2.2 ++ row0) := by
  induction nbrs with
  | nil =>
    intro values counts row0
    rw [addDomLoop1_nil, addDomLoop1_nil]
    simp
  | cons u rest ih =>
    intro values counts row0
    by_cases h : values u = INVALID_MDD
    · rw [addDomLoop1_cons_skip u rest values counts row0 h,
        addDomLoop1_cons_skip u rest values counts [] h]
      exact ih values counts row0
    · rw [addDomLoop1_cons_step u rest values counts row0 h,
        addDomLoop1_cons_step u rest values counts [] h,
        ih _ _ ((u, values u) :: row0), ih _ _ ((u, values u) :: [])]
      simp

theorem addDomLoop2_shift (undom : List Nat) (recompute : Nat → Int) :
    ∀ (values : Nat → Int) (counts : Int → Int) (row0 : List (Nat × Int)),
      addDomLoop2 undom recompute (values, counts, row0) =
        ((addDomLoop2 undom recompute (values, counts, [])).1,
         (addDomLoop2 undom recompute (values, counts, [])).2.1,
         (addDomLoop2 undom recompute (values, counts, [])).2.2 ++ row0) := by
  induction undom with
  | nil =>
    intro values counts row0
    rw [addDomLoop2_nil, addDomLoop2_nil]
    simp
  | cons u rest ih =>
    intro values counts row0
    by_cases h : values u = recompute u
    · rw [addDomLoop2_cons_skip u rest recompute values counts row0 h,
        addDomLoop2_cons_skip u rest recompute values counts [] h]
      exact ih values counts row0
    · rw [addDomLoop2_cons_step u rest recompute values counts row0 h,
        addDomLoop2_cons_step u rest recompute values counts [] h,
        ih _ _ ((u, values u) :: row0), ih _ _ ((u, values u) :: [])]
      simp

theorem exclDomLoop_shift (nbrs : List Nat) (undomContains : Nat → Bool)
    (recompute : Nat → Int) :
    ∀ (values : Nat → Int) (counts : Int → Int) (row0 : List (Nat × Int)),
      exclDomLoop nbrs undomContains recompute (values, counts, row0) =
        ((exclDomLoop nbrs undomContains recompute (values, counts, [])).1,
         (exclDomLoop nbrs undomContains recompute (values, counts, [])).2.1,
         (exclDomLoop nbrs undomContains recompute (values, counts, [])).2.2 ++ row0) := by
  induction nbrs with
  | nil =>
    intro values counts row0
    rw [exclDomLoop_nil, exclDomLoop_nil]
    simp
  | cons u rest ih =>
    intro values counts row0
    by_cases h1 : undomContains u
    · by_cases h2 : recompute u = values u
      · rw [exclDomLoop_cons_skip2 u rest undomContains recompute values counts row0 h1 h2,
          exclDomLoop_cons_skip2 u rest undomContains recompute values counts [] h1 h2]
        exact ih values counts row0
      · rw [exclDomLoop_cons_step u rest undomContains recompute values counts row0 h1 h2,
          exclDomLoop_cons_step u rest undomContains recompute values counts [] h1 h2,
          ih _ _ ((u, values u) :: row0), ih _ _ ((u, values u) :: [])]
        simp
    · rw [exclDomLoop_cons_skip1 u rest undomContains recompute values counts row0
          (Bool.not_eq_true _ ▸ h1),
        exclDomLoop_cons_skip1 u rest undomContains recompute values counts []
          (Bool.not_eq_true _ ▸ h1)]
      exact ih values counts row0

/-- Popping the row pushed by the first `add_dominator` loop restores
`mdd_values` and `mdd_counts` exactly (the loop INVALIDates a vertex at
most once, and the restore walk revisits the entries last-written
first). -/
theorem addDomLoop1_restore (nbrs : List Nat) :
    ∀ (values : Nat → Int) (counts : Int → Int) (h0 : Int),
      (restoreRow (addDomLoop1 nbrs (values, counts, [])).2.2
        ((addDomLoop1 nbrs (values, counts, [])).1,
         (addDomLoop1 nbrs (values, counts, [])).2.1, h0)).1 = values ∧
      (restoreRow (addDomLoop1 nbrs (values, counts, [])).2.2
        ((addDomLoop1 nbrs (values, counts, [])).1,
         (addDomLoop1 nbrs (values, counts, [])).2.1, h0)).2.1 = counts := by
  induction nbrs with
  | nil =>
    intro values counts h0
    rw [addDomLoop1_nil]
    exact ⟨rfl, rfl⟩
  | cons u rest ih =>
    intro values counts h0
    by_cases h : values u = INVALID_MDD
    · rw [addDomLoop1_cons_skip u rest values counts [] h]
      exact ih values counts h0
    · rw [addDomLoop1_cons_step u rest values counts [] h,
        addDomLoop1_shift rest _ _ [(u, values u)]]
      simp only [restoreRow_append]
      obtain ⟨ih1, ih2⟩ := ih (setVal values u INVALID_MDD)
        (bump counts (values u) (-1)) h0
      obtain ⟨a, b, c, x3⟩ :
          ∃ a b c, restoreRow (addDomLoop1 rest
            (setVal values u INVALID_MDD, bump counts (values u) (-1), [])).2.2
            ((addDomLoop1 rest
              (setVal values u INVALID_MDD, bump counts (values u) (-1), [])).1,
             (addDomLoop1 rest
              (setVal values u INVALID_MDD, bump counts (values u) (-1), [])).2.1,
             h0) = (a, b, c) :=
        ⟨_, _, _, rfl⟩
      rw [x3] at ih1 ih2 ⊢
      simp only at ih1 ih2
      rw [restoreRow_cons, restoreRow_nil]
      simp only [ih1, ih2]
      constructor
      · exact setVal_restore values u INVALID_MDD
      · rw [if_pos (by rw [setVal_apply, if_pos rfl])]
        exact bump_cancel_neg_one counts (values u)

/-- Popping the row pushed by the second `add_dominator` loop restores
`mdd_values` and `mdd_counts` exactly: the undominated set iterates
each vertex once, and the recomputed values are never `INVALID_MDD`. -/
theorem addDomLoop2_restore (recompute : Nat → Int)
    (hrecNI : ∀ u, recompute u ≠ INVALID_MDD) (undom : List Nat) :
    ∀ (values : Nat → Int) (counts : Int → Int) (h0 : Int), undom.Nodup →
      (restoreRow (addDomLoop2 undom recompute (values, counts, [])).2.2
        ((addDomLoop2 undom recompute (values, counts, [])).1,
         (addDomLoop2 undom recompute (values, counts, [])).2.1, h0)).1 = values ∧
      (restoreRow (addDomLoop2 undom recompute (values, counts, [])).2.2
        ((addDomLoop2 undom recompute (values, counts, [])).1,
         (addDomLoop2 undom recompute (values, counts, [])).2.1, h0)).2.1 = counts := by
  induction undom with
  | nil =>
    intro values counts h0 _
    rw [addDomLoop2_nil]
    exact ⟨rfl, rfl⟩
  | cons u rest ih =>
    intro values counts h0 hnd
    have hndr := (List.nodup_cons.mp hnd).2
    by_cases h : values u = recompute u
    · rw [addDomLoop2_cons_skip u rest recompute values counts [] h]
      exact ih values counts h0 hndr
    · rw [addDomLoop2_cons_step u rest recompute values counts [] h,
        addDomLoop2_shift rest recompute _ _ [(u, values u)]]
      simp only [restoreRow_append]
      obtain ⟨ih1, ih2⟩ := ih (setVal values u (recompute u))
        (bump (bump counts (values u) (-1)) (recompute u) 1) h0 hndr
      obtain ⟨a, b, c, x3⟩ :
          ∃ a b c, restoreRow (addDomLoop2 rest recompute
            (setVal values u (recompute u),
             bump (bump counts (values u) (-1)) (recompute u) 1, [])).2.2
            ((addDomLoop2 rest recompute
              (setVal values u (recompute u),
               bump (bump counts (values u) (-1)) (recompute u) 1, [])).1,
             (addDomLoop2 rest recompute
              (setVal values u (recompute u),
               bump (bump counts (values u) (-1)) (recompute u) 1, [])).2.1,
             h0) = (a, b, c) :=
        ⟨_, _, _, rfl⟩
      rw [x3] at ih1 ih2 ⊢
      simp only at ih1 ih2
      rw [restoreRow_cons, restoreRow_nil]
      simp only [ih1, ih2]
      constructor
      · exact setVal_restore values u (recompute u)
      · rw [if_neg (by rw [setVal_apply, if_pos rfl]; exact hrecNI u),
          setVal_apply, if_pos rfl,
          bump_cancel (bump counts (values u) (-1)) (recompute u) 1,
          bump_cancel_neg_one]

/-- Popping the row pushed by `exclude_dominator`'s loop restores
`mdd_values` and `mdd_counts` exactly.  No distinctness hypothesis is
needed: a second visit to the same vertex sees its already-recomputed
value and is skipped. -/
theorem exclDomLoop_restore (undomContains : Nat → Bool)
    (recompute : Nat → Int) (hrecNI : ∀ u, recompute u ≠ INVALID_MDD)
    (nbrs : List Nat) :
    ∀ (values : Nat → Int) (counts : Int → Int) (h0 : Int),
      (restoreRow (exclDomLoop nbrs undomContains recompute (values, counts, [])).2.2
        ((exclDomLoop nbrs undomContains recompute (values, counts, [])).1,
         (exclDomLoop nbrs undomContains recompute (values, counts, [])).2.1, h0)).1 = values ∧
      (restoreRow (exclDomLoop nbrs undomContains recompute (values, counts, [])).2.2
        ((exclDomLoop nbrs undomContains recompute (values, counts, [])).1,
         (exclDomLoop nbrs undomContains recompute (values, counts, [])).2.1, h0)).2.1 = counts := by
  induction nbrs with
  | nil =>
    intro values counts h0
    rw [exclDomLoop_nil]
    exact ⟨rfl, rfl⟩
  | cons u rest ih =>
    intro values counts h0
    by_cases h1 : undomContains u
    · by_cases h2 : recompute u = values u
      · rw [exclDomLoop_cons_skip2 u rest undomContains recompute values counts [] h1 h2]
        exact ih values counts h0
      · rw [exclDomLoop_cons_step u rest undomContains recompute values counts [] h1 h2,
          exclDomLoop_shift rest undomContains recompute _ _ [(u, values u)]]
        simp only [restoreRow_append]
        obtain ⟨ih1, ih2⟩ := ih (setVal values u (recompute u))
          (bump (bump counts (values u) (-1)) (recompute u) 1) h0
        obtain ⟨a, b, c, x3⟩ :
            ∃ a b c, restoreRow (exclDomLoop rest undomContains recompute
              (setVal values u (recompute u),
               bump (bump counts (values u) (-1)) (recompute u) 1, [])).2.2
              ((exclDomLoop rest undomContains recompute
                (setVal values u (recompute u),
                 bump (bump counts (values u) (-1)) (recompute u) 1, [])).1,
               (exclDomLoop rest undomContains recompute
                (setVal values u (recompute u),
                 bump (bump counts (values u) (-1)) (recompute u) 1, [])).2.1,
               h0) = (a, b, c) :=
          ⟨_, _, _, rfl⟩
        rw [x3] at ih1 ih2 ⊢
        simp only at ih1 ih2
        rw [restoreRow_cons, restoreRow_nil]
        simp only [ih1, ih2]
        constructor
        · exact setVal_restore values u (recompute u)
        · rw [if_neg (by rw [setVal_apply, if_pos rfl]; exact hrecNI u),
            setVal_apply, if_pos rfl,
            bump_cancel (bump counts (values u) (-1)) (recompute u) 1,
            bump_cancel_neg_one]
    · rw [exclDomLoop_cons_skip1 u rest undomContains recompute values counts []
          (Bool.not_eq_true _ ▸ h1)]
      exact ih values counts h0

/-- What the first `add_dominator` loop records: each entry saves a
neighbour's original value (each vertex is cleared at most once), every
value change is recorded, and vertices outside the neighbour list are
untouched. -/
theorem addDomLoop1_row (nbrs : List Nat) :
    ∀ (values : Nat → Int) (counts : Int → Int),
      (∀ e ∈ (addDomLoop1 nbrs (values, counts, [])).2.2,
          e.2 = values e.1 ∧ e.1 ∈ nbrs ∧ values e.1 ≠ INVALID_MDD) ∧
      (∀ w, (addDomLoop1 nbrs (values, counts, [])).1 w ≠ values w →
          (w, values w) ∈ (addDomLoop1 nbrs (values, counts, [])).2.2) ∧
      (∀ w, w ∉ nbrs → (addDomLoop1 nbrs (values, counts, [])).1 w = values w) := by
  induction nbrs with
  | nil =>
    intro values counts
    rw [addDomLoop1_nil]
    exact ⟨by simp, by simp, fun w _ => rfl⟩
  | cons u rest ih =>
    intro values counts
    by_cases h : values u = INVALID_MDD
    · rw [addDomLoop1_cons_skip u rest values counts [] h]
      obtain ⟨e1, t1, n1⟩ := ih values counts
      refine ⟨fun e he => ?_, fun w hw => t1 w hw, fun w hw => n1 w fun hm => hw (List.mem_cons_of_mem _ hm)⟩
      obtain ⟨a, b, c⟩ := e1 e he
      exact ⟨a, List.mem_cons_of_mem _ b, c⟩
    · rw [addDomLoop1_cons_step u rest values counts [] h,
        addDomLoop1_shift rest _ _ [(u, values u)]]
      obtain ⟨e1, t1, n1⟩ := ih (setVal values u INVALID_MDD) (bump counts (values u) (-1))
      refine ⟨fun e he => ?_, fun w hw => ?_, fun w hw => ?_⟩
      · simp only [List.mem_append, List.mem_singleton] at he
        rcases he with he | he
        · obtain ⟨a, b, c⟩ := e1 e he
          have hne : e.1 ≠ u := by
            intro hh
            rw [hh, setVal_apply, if_pos rfl] at c
            exact c rfl
          rw [setVal_ne _ _ _ _ hne] at a c
          exact ⟨a, List.mem_cons_of_mem _ b, c⟩
        · subst he
          exact ⟨rfl, List.mem_cons_self _ _, h⟩
      · simp only [List.mem_append, List.mem_singleton]
        by_cases hwu : w = u
        · subst hwu
          exact Or.inr rfl
        · left
          have hv1 : setVal values u INVALID_MDD w = values w := setVal_ne _ _ _ _ hwu
          have := t1 w (by simpa only [hv1] using hw)
          rwa [hv1] at this
      · have hwu : w ≠ u := fun hh => hw (hh ▸ List.mem_cons_self _ _)
        have hwr : w ∉ rest := fun hm => hw (List.mem_cons_of_mem _ hm)
        rw [n1 w hwr, setVal_ne _ _ _ _ hwu]

/-- What the second `add_dominator` loop records (over the distinct
undominated vertices). -/
theorem addDomLoop2_row (recompute : Nat → Int) (undom : List Nat) :
    ∀ (values : Nat → Int) (counts : Int → Int), undom.Nodup →
      (∀ e ∈ (addDomLoop2 undom recompute (values, counts, [])).2.2,
          e.2 = values e.1 ∧ e.1 ∈ undom) ∧
      (∀ w, (addDomLoop2 undom recompute (values, counts, [])).1 w ≠ values w →
          (w, values w) ∈ (addDomLoop2 undom recompute (values, counts, [])).2.2) ∧
      (∀ w, w ∉ undom → (addDomLoop2 undom recompute (values, counts, [])).1 w = values w) := by
  induction undom with
  | nil =>
    intro values counts _
    rw [addDomLoop2_nil]
    exact ⟨by simp, by simp, fun w _ => rfl⟩
  | cons u rest ih =>
    intro values counts hnd
    have hu_notin := (List.nodup_cons.mp hnd).1
    have hndr := (List.nodup_cons.mp hnd).2
    by_cases h : values u = recompute u
    · rw [addDomLoop2_cons_skip u rest recompute values counts [] h]
      obtain ⟨e1, t1, n1⟩ := ih values counts hndr
      refine ⟨fun e he => ?_, fun w hw => t1 w hw, fun w hw => n1 w fun hm => hw (List.mem_cons_of_mem _ hm)⟩
      obtain ⟨a, b⟩ := e1 e he
      exact ⟨a, List.mem_cons_of_mem _ b⟩
    · rw [addDomLoop2_cons_step u rest recompute values counts [] h,
        addDomLoop2_shift rest recompute _ _ [(u, values u)]]
      obtain ⟨e1, t1, n1⟩ := ih (setVal values u (recompute u))
        (bump (bump counts (values u) (-1)) (recompute u) 1) hndr
      refine ⟨fun e he => ?_, fun w hw => ?_, fun w hw => ?_⟩
      · simp only [List.mem_append, List.mem_singleton] at he
        rcases he with he | he
        · obtain ⟨a, b⟩ := e1 e he
          have hne : e.1 ≠ u := fun hh => hu_notin (hh ▸ b)
          rw [setVal_ne _ _ _ _ hne] at a
          exact ⟨a, List.mem_cons_of_mem _ b⟩
        · subst he
          exact ⟨rfl, List.mem_cons_self _ _⟩
      · simp only [List.mem_append, List.mem_singleton]
        by_cases hwu : w = u
        · subst hwu
          exact Or.inr rfl
        · left
          have hv1 : setVal values u (recompute u) w = values w := setVal_ne _ _ _ _ hwu
          have := t1 w (by simpa only [hv1] using hw)
          rwa [hv1] at this
      · have hwu : w ≠ u := fun hh => hw (hh ▸ List.mem_cons_self _ _)
        have hwr : w ∉ rest := fun hm => hw (List.mem_cons_of_mem _ hm)
        rw [n1 w hwr, setVal_ne _ _ _ _ hwu]

/-- What `exclude_dominator`'s loop records.  The saved value of an
entry always differs from its recomputed value, which rules out a
second entry for the same vertex even without a distinctness
hypothesis. -/
theorem exclDomLoop_row (undomContains : Nat → Bool) (recompute : Nat → Int)
    (nbrs : List Nat) :
    ∀ (values : Nat → Int) (counts : Int → Int),
      (∀ e ∈ (exclDomLoop nbrs undomContains recompute (values, counts, [])).2.2,
          e.2 = values e.1 ∧ e.1 ∈ nbrs ∧ undomContains e.1 = true ∧
            e.2 ≠ recompute e.1) ∧
      (∀ w, (exclDomLoop nbrs undomContains recompute (values, counts, [])).1 w ≠ values w →
          (w, values w) ∈ (exclDomLoop nbrs undomContains recompute (values, counts, [])).2.2) ∧
      (∀ w, w ∉ nbrs →
          (exclDomLoop nbrs undomContains recompute (values, counts, [])).1 w = values w) := by
  induction nbrs with
  | nil =>
    intro values counts
    rw [exclDomLoop_nil]
    exact ⟨by simp, by simp, fun w _ => rfl⟩
  | cons u rest ih =>
    intro values counts
    by_cases h1 : undomContains u
    · by_cases h2 : recompute u = values u
      · rw [exclDomLoop_cons_skip2 u rest undomContains recompute values counts [] h1 h2]
        obtain ⟨e1, t1, n1⟩ := ih values counts
        refine ⟨fun e he => ?_, fun w hw => t1 w hw, fun w hw => n1 w fun hm => hw (List.mem_cons_of_mem _ hm)⟩
        obtain ⟨a, b, c, d⟩ := e1 e he
        exact ⟨a, List.mem_cons_of_mem _ b, c, d⟩
      · rw [exclDomLoop_cons_step u rest undomContains recompute values counts [] h1 h2,
          exclDomLoop_shift rest undomContains recompute _ _ [(u, values u)]]
        obtain ⟨e1, t1, n1⟩ := ih (setVal values u (recompute u))
          (bump (bump counts (values u) (-1)) (recompute u) 1)
        refine ⟨fun e he => ?_, fun w hw => ?_, fun w hw => ?_⟩
        · simp only [List.mem_append, List.mem_singleton] at he
          rcases he with he | he
          · obtain ⟨a, b, c, d⟩ := e1 e he
            have hne : e.1 ≠ u := by
              intro hh
              rw [hh, setVal_apply, if_pos rfl] at a
              rw [hh] at d
              exact d a
            rw [setVal_ne _ _ _ _ hne] at a
            exact ⟨a, List.mem_cons_of_mem _ b, c, d⟩
          · subst he
            exact ⟨rfl, List.mem_cons_self _ _, h1, fun hh => h2 hh.symm⟩
        · simp only [List.mem_append, List.mem_singleton]
          by_cases hwu : w = u
          · subst hwu
            exact Or.inr rfl
          · left
            have hv1 : setVal values u (recompute u) w = values w := setVal_ne _ _ _ _ hwu
            have := t1 w (by simpa only [hv1] using hw)
            rwa [hv1] at this
        · have hwu : w ≠ u := fun hh => hw (hh ▸ List.mem_cons_self _ _)
          have hwr : w ∉ rest := fun hm => hw (List.mem_cons_of_mem _ hm)
          rw [n1 w hwr, setVal_ne _ _ _ _ hwu]
    · rw [exclDomLoop_cons_skip1 u rest undomContains recompute values counts []
          (Bool.not_eq_true _ ▸ h1)]
      obtain ⟨e1, t1, n1⟩ := ih values counts
      refine ⟨fun e he => ?_, fun w hw => t1 w hw, fun w hw => n1 w fun hm => hw (List.mem_cons_of_mem _ hm)⟩
      obtain ⟨a, b, c, d⟩ := e1 e he
      exact ⟨a, List.mem_cons_of_mem _ b, c, d⟩

theorem cardVal_nonneg (f : Nat → Int) (n : Nat) (d : Int) :
    0 ≤ cardVal f n d := by
  unfold cardVal
  omega

theorem cardVal_succ (f : Nat → Int) (n : Nat) (d : Int) :
    cardVal f (n + 1) d = cardVal f n d + (if f n = d then 1 else 0) := by
  unfold cardVal
  rw [List.range_succ, List.filter_append, List.length_append]
  by_cases h : f n = d
  · simp [h]
  · simp [h]

theorem cardVal_congr (f g : Nat → Int) (d : Int) :
    ∀ n, (∀ w, w < n → f w = g w) → cardVal f n d = cardVal g n d := by
  intro n
  induction n with
  | zero => intro _; rfl
  | succ n ih =>
    intro h
    rw [cardVal_succ, cardVal_succ, ih fun w hw => h w (Nat.lt_succ_of_lt hw),
      h n (Nat.lt_succ_self n)]

/-- Overwriting one in-range vertex value shifts the census by one unit
between the old and the new bucket. -/
theorem cardVal_setVal (f : Nat → Int) (u : Nat) (x d : Int) :
    ∀ n, u < n →
      cardVal (setVal f u x) n d =
        cardVal f n d + (if x = d then 1 else 0) - (if f u = d then 1 else 0) := by
  intro n
  induction n with
  | zero => intro h; exact absurd h (Nat.not_lt_zero u)
  | succ n ih =>
    intro hu
    rcases Nat.lt_succ_iff_lt_or_eq.mp hu with h | h
    · rw [cardVal_succ, cardVal_succ, ih h, setVal_ne f u x n (Nat.ne_of_gt h)]
      ring
    · subst h
      rw [cardVal_succ, cardVal_succ,
        cardVal_congr (setVal f u x) f d u fun w hw => setVal_ne f u x w (Nat.ne_of_lt hw),
        setVal_apply, if_pos rfl]
      ring

theorem cardVal_eq_zero (f : Nat → Int) (d : Int) :
    ∀ n, cardVal f n d = 0 → ∀ u, u < n → f u ≠ d := by
  intro n
  induction n with
  | zero => intro _ u hu; exact absurd hu (Nat.not_lt_zero u)
  | succ n ih =>
    intro h u hu
    rw [cardVal_succ] at h
    have h1 : 0 ≤ cardVal f n d := cardVal_nonneg f n d
    by_cases hd : f n = d
    · rw [if_pos hd] at h
      exact absurd h (by omega)
    · rw [if_neg hd, add_zero] at h
      rcases Nat.lt_succ_iff_lt_or_eq.mp hu with h' | h'
      · exact ih h u h'
      · exact h' ▸ hd

theorem cardVal_ne_zero (f : Nat → Int) (d : Int) :
    ∀ n, cardVal f n d ≠ 0 → ∃ u, u < n ∧ f u = d := by
  intro n
  induction n with
  | zero => intro h; exact absurd rfl h
  | succ n ih =>
    intro h
    rw [cardVal_succ] at h
    by_cases hd : f n = d
    · exact ⟨n, Nat.lt_succ_self n, hd⟩
    · rw [if_neg hd, add_zero] at h
      obtain ⟨u, hu, hd'⟩ := ih h
      exact ⟨u, Nat.lt_succ_of_lt hu, hd'⟩

/-- Consistency survives a loop-1 step: clearing a vertex to
`INVALID_MDD` and decrementing its old bucket. -/
theorem mddConsistent_step1 (values : Nat → Int) (counts : Int → Int)
    (n u : Nat) (hu : u < n) (hc : mddConsistent values counts n) :
    mddConsistent (setVal values u INVALID_MDD)
      (bump counts (values u) (-1)) n := by
  intro d hd0 hdni
  rw [bump_apply, hc d hd0 hdni, cardVal_setVal values u INVALID_MDD d n hu,
    if_neg (show ¬(INVALID_MDD = d) from fun hh => hdni hh.symm)]
  by_cases h : d = values u
  · rw [if_pos h, if_pos (show values u = d from h.symm)]
    ring
  · rw [if_neg h, if_neg (show ¬(values u = d) from fun hh => h hh.symm)]
    ring

/-- Consistency survives a recompute step: moving a vertex from its old
bucket to bucket `x`. -/
theorem mddConsistent_step2 (values : Nat → Int) (counts : Int → Int)
    (n u : Nat) (x : Int) (hu : u < n) (hc : mddConsistent values counts n) :
    mddConsistent (setVal values u x)
      (bump (bump counts (values u) (-1)) x 1) n := by
  intro d hd0 hdni
  rw [bump_apply, bump_apply, hc d hd0 hdni, cardVal_setVal values u x d n hu]
  by_cases h1 : d = x
  · rw [if_pos h1, if_pos (show x = d from h1.symm)]
    by_cases h2 : d = values u
    · rw [if_pos h2, if_pos (show values u = d from h2.symm)]
      ring
    · rw [if_neg h2, if_neg (show ¬(values u = d) from fun hh => h2 hh.symm)]
      ring
  · rw [if_neg h1, if_neg (show ¬(x = d) from fun hh => h1 hh.symm)]
    by_cases h2 : d = values u
    · rw [if_pos h2, if_pos (show values u = d from h2.symm)]
      ring
    · rw [if_neg h2, if_neg (show ¬(values u = d) from fun hh => h2 hh.symm)]
      ring

theorem addDomLoop1_consistent (n : Nat) (nbrs : List Nat) :
    ∀ (values : Nat → Int) (counts : Int → Int) (row : List (Nat × Int)),
      (∀ u ∈ nbrs, u < n) → mddConsistent values counts n →
      mddConsistent (addDomLoop1 nbrs (values, counts, row)).1
        (addDomLoop1 nbrs (values, counts, row)).2.1 n := by
  induction nbrs with
  | nil =>
    intro values counts row _ hc
    rw [addDomLoop1_nil]
    exact hc
  | cons u rest ih =>
    intro values counts row hnb hc
    have hr : ∀ w ∈ rest, w < n := fun w hw => hnb w (List.mem_cons_of_mem _ hw)
    by_cases h : values u = INVALID_MDD
    · rw [addDomLoop1_cons_skip u rest values counts row h]
      exact ih values counts row hr hc
    · rw [addDomLoop1_cons_step u rest values counts row h]
      exact ih _ _ _ hr
        (mddConsistent_step1 values counts n u (hnb u (List.mem_cons_self _ _)) hc)

theorem addDomLoop2_consistent (n : Nat) (recompute : Nat → Int)
    (undom : List Nat) :
    ∀ (values : Nat → Int) (counts : Int → Int) (row : List (Nat × Int)),
      (∀ u ∈ undom, u < n) → mddConsistent values counts n →
      mddConsistent (addDomLoop2 undom recompute (values, counts, row)).1
        (addDomLoop2 undom recompute (values, counts, row)).2.1 n := by
  induction undom with
  | nil =>
    intro values counts row _ hc
    rw [addDomLoop2_nil]
    exact hc
  | cons u rest ih =>
    intro values counts row hnb hc
    have hr : ∀ w ∈ rest, w < n := fun w hw => hnb w (List.mem_cons_of_mem _ hw)
    by_cases h : values u = recompute u
    · rw [addDomLoop2_cons_skip u rest recompute values counts row h]
      exact ih values counts row hr hc
    · rw [addDomLoop2_cons_step u rest recompute values counts row h]
      exact ih _ _ _ hr
        (mddConsistent_step2 values counts n u (recompute u)
          (hnb u (List.mem_cons_self _ _)) hc)

theorem exclDomLoop_consistent (n : Nat) (undomContains : Nat → Bool)
    (recompute : Nat → Int) (nbrs : List Nat) :
    ∀ (values : Nat → Int) (counts : Int → Int) (row : List (Nat × Int)),
      (∀ u ∈ nbrs, u < n) → mddConsistent values counts n →
      mddConsistent (exclDomLoop nbrs undomContains recompute (values, counts, row)).1
        (exclDomLoop nbrs undomContains recompute (values, counts, row)).2.1 n := by
  induction nbrs with
  | nil =>
    intro values counts row _ hc
    rw [exclDomLoop_nil]
    exact hc
  | cons u rest ih =>
    intro values counts row hnb hc
    have hr : ∀ w ∈ rest, w < n := fun w hw => hnb w (List.mem_cons_of_mem _ hw)
    by_cases h1 : undomContains u
    · by_cases h2 : recompute u = values u
      · rw [exclDomLoop_cons_skip2 u rest undomContains recompute values counts row h1 h2]
        exact ih values counts row hr hc
      · rw [exclDomLoop_cons_step u rest undomContains recompute values counts row h1 h2]
        exact ih _ _ _ hr
          (mddConsistent_step2 values counts n u (recompute u)
            (hnb u (List.mem_cons_self _ _)) hc)
    · rw [exclDomLoop_cons_skip1 u rest undomContains recompute values counts row
          (Bool.not_eq_true _ ▸ h1)]
      exact ih values counts row hr hc

/-- The guarded bucket rescan of `add_dominator` never raises
`max_mdd`. -/
theorem addDrop_le (counts : Int → Int) :
    ∀ (fuel : Nat) (m : Int), addDrop counts fuel m ≤ m := by
  intro fuel
  induction fuel with
  | zero => intro m; exact le_refl m
  | succ fuel ih =>
    intro m
    simp only [addDrop]
    split
    · exact le_trans (ih (m - 1)) (by omega)
    · exact le_refl m

/-- The rescan stops at once on a nonempty bucket (or at 0). -/
theorem addDrop_stop (counts : Int → Int) (fuel : Nat) (m : Int)
    (h : ¬(counts m = 0 ∧ m > 0)) : addDrop counts fuel m = m := by
  cases fuel with
  | zero => rfl
  | succ fuel =>
    simp only [addDrop]
    rw [if_neg h]

theorem exclDrop_le (counts : Int → Int) :
    ∀ (fuel : Nat) (m : Int), exclDrop counts fuel m ≤ m := by
  intro fuel
  induction fuel with
  | zero =>
    intro m
    simp only [exclDrop]
    split
    · omega
    · exact le_refl m
  | succ fuel ih =>
    intro m
    simp only [exclDrop]
    split
    · exact le_trans (ih (m - 1)) (by omega)
    · exact le_refl m

theorem exclDrop_stop (counts : Int → Int) (fuel : Nat) (m : Int)
    (h : counts m ≠ 0) : exclDrop counts fuel m = m := by
  cases fuel with
  | zero =>
    simp only [exclDrop]
    rw [if_neg h]
  | succ fuel =>
    simp only [exclDrop]
    rw [if_neg h]

/-- The `highest_new_mdd` fold is bounded by any bound on the entries
and the seed. -/
theorem rowMax_le (b : Int) (l : List (Nat × Int)) :
    ∀ h0 : Int, h0 ≤ b → (∀ e ∈ l, e.2 ≤ b) →
      l.foldl (fun h e => max h e.2) h0 ≤ b := by
  induction l with
  | nil => intro h0 hh _; exact hh
  | cons e l ih =>
    intro h0 hh hb
    rw [List.foldl_cons]
    exact ih (max h0 e.2) (max_le hh (hb e (List.mem_cons_self _ _)))
      fun x hx => hb x (List.mem_cons_of_mem _ hx)

theorem rowMax_ge_init (l : List (Nat × Int)) :
    ∀ h0 : Int, h0 ≤ l.foldl (fun h e => max h e.2) h0 := by
  induction l with
  | nil => intro h0; exact le_refl h0
  | cons e l ih =>
    intro h0
    rw [List.foldl_cons]
    exact le_trans (le_max_left h0 e.2) (ih (max h0 e.2))

theorem rowMax_ge_mem (l : List (Nat × Int)) :
    ∀ e : Nat × Int, e ∈ l → ∀ h0 : Int,
      e.2 ≤ l.foldl (fun h x => max h x.2) h0 := by
  induction l with
  | nil => intro e he; exact absurd he (List.not_mem_nil e)
  | cons a l ih =>
    intro e he h0
    rw [List.foldl_cons]
    rcases List.mem_cons.mp he with h | h
    · rw [h]
      exact le_trans (le_max_right h0 a.2) (rowMax_ge_init l (max h0 a.2))
    · exact ih e h (max h0 a.2)

/-- Unfolding `remove_dominator` on a matching top-of-stack row. -/
theorem remove_cons (v : Nat) (row : List (Nat × Int)) (V : Nat → Int)
    (C : Int → Int) (M : Int) (stk : List (Nat × List (Nat × Int))) :
    remove_dominator v (MddState.mk V C M ((v, row) :: stk)) =
      MddState.mk (restoreRow row (V, C, 0)).1 (restoreRow row (V, C, 0)).2.1
        (if (restoreRow row (V, C, 0)).2.2 > M then (restoreRow row (V, C, 0)).2.2 else M)
        stk := by
  simp only [remove_dominator]
  rw [if_neg (show ¬v ≠ v from fun h => h rfl)]

/-- Unfolding `unexclude_dominator` on a matching top-of-stack row. -/
theorem unexclude_cons (v : Nat) (row : List (Nat × Int)) (V : Nat → Int)
    (C : Int → Int) (M : Int) (stk : List (Nat × List (Nat × Int))) :
    unexclude_dominator v (MddState.mk V C M ((v, row) :: stk)) =
      MddState.mk (restoreRow row (V, C, 0)).1 (restoreRow row (V, C, 0)).2.1
        (if (restoreRow row (V, C, 0)).2.2 > M then (restoreRow row (V, C, 0)).2.2 else M)
        stk := by
  simp only [unexclude_dominator]
  rw [if_neg (show ¬v ≠ v from fun h => h rfl)]

/-- `unexclude_dominator(v)` exactly undoes a matching
`exclude_dominator(v)` on a well-formed state: `mdd_values`,
`mdd_counts`, `max_mdd` and the stack all return to their prior
values.  The hypotheses record the state the solver guarantees at the
call: neighbour indices in range, undominated neighbours carrying live
(non-`INVALID_MDD`) values, recomputed MDDs never `INVALID_MDD`,
`mdd_counts` consistent with the value census, the `max_mdd`
invariants, and a nonempty top bucket (some vertex is still
undominated — also what keeps the source's unguarded
`while(mdd_counts[max_mdd]==0)` rescan inside the array). -/
theorem mddExclUnexcl_restores (n : Nat) (nbrs : List Nat)
    (undomContains : Nat → Bool) (recompute : Nat → Int) (v : Nat) (s : MddState)
    (hnb : ∀ u ∈ nbrs, u < n)
    (hexNI : ∀ u ∈ nbrs, undomContains u = true → s.values u ≠ INVALID_MDD)
    (hrecNI : ∀ u, recompute u ≠ INVALID_MDD)
    (hcons : mddConsistent s.values s.counts n)
    (hmax : mddMaxInv s.counts s.maxMdd)
    (hvals : mddValuesInv s.values s.maxMdd)
    (hlive : s.counts s.maxMdd ≠ 0) :
    unexclude_dominator v (exclude_dominator nbrs undomContains recompute v s) = s := by
  obtain ⟨V1, C1, N1, h1⟩ :
      ∃ a b c, exclDomLoop nbrs undomContains recompute (s.values, s.counts, []) = (a, b, c) :=
    ⟨_, _, _, rfl⟩
  have hEx : exclude_dominator nbrs undomContains recompute v s =
      MddState.mk V1 C1 (exclDrop C1 s.maxMdd.toNat s.maxMdd) ((v, N1) :: s.stack) := by
    rw [show exclude_dominator nbrs undomContains recompute v s =
        MddState.mk (exclDomLoop nbrs undomContains recompute (s.values, s.counts, [])).1
          (exclDomLoop nbrs undomContains recompute (s.values, s.counts, [])).2.1
          (exclDrop (exclDomLoop nbrs undomContains recompute (s.values, s.counts, [])).2.1
            s.maxMdd.toNat s.maxMdd)
          ((v, (exclDomLoop nbrs undomContains recompute (s.values, s.counts, [])).2.2) :: s.stack)
        from rfl, h1]
  obtain ⟨hres1, hres2⟩ :=
    exclDomLoop_restore undomContains recompute hrecNI nbrs s.values s.counts 0
  rw [h1] at hres1 hres2
  dsimp only at hres1 hres2
  obtain ⟨hrow, htouch, _⟩ := exclDomLoop_row undomContains recompute nbrs s.values s.counts
  rw [h1] at hrow htouch
  dsimp only at hrow htouch
  have hcons1 := exclDomLoop_consistent n undomContains recompute nbrs s.values s.counts [] hnb hcons
  rw [h1] at hcons1
  dsimp only at hcons1
  rw [hEx, unexclude_cons, hres1, hres2, restoreRow_highest]
  dsimp only
  have hent : ∀ e ∈ N1, e.2 ≤ s.maxMdd := by
    intro e he
    obtain ⟨ha, hb, hc, _⟩ := hrow e he
    rw [ha]
    exact (hvals e.1 (hexNI e.1 hb hc)).2
  have hF_le : N1.foldl (fun h e => max h e.2) 0 ≤ s.maxMdd :=
    rowMax_le s.maxMdd N1 0 hmax.1 hent
  have hmx : (if N1.foldl (fun h e => max h e.2) 0 > exclDrop C1 s.maxMdd.toNat s.maxMdd
      then N1.foldl (fun h e => max h e.2) 0
      else exclDrop C1 s.maxMdd.toNat s.maxMdd) = s.maxMdd := by
    by_cases hC1 : C1 s.maxMdd = 0
    · have hcv : cardVal s.values n s.maxMdd ≠ 0 :=
        hcons s.maxMdd hmax.1 hmax.2.1 ▸ hlive
      obtain ⟨u0, hu0n, hu0v⟩ := cardVal_ne_zero s.values s.maxMdd n hcv
      have hzero : cardVal V1 n s.maxMdd = 0 :=
        (hcons1 s.maxMdd hmax.1 hmax.2.1).symm.trans hC1
      have hne : V1 u0 ≠ s.values u0 := fun hh =>
        cardVal_eq_zero V1 s.maxMdd n hzero u0 hu0n (hh.trans hu0v)
      have hge := rowMax_ge_mem N1 (u0, s.values u0) (htouch u0 hne) 0
      dsimp only at hge
      rw [hu0v] at hge
      have hFeq : N1.foldl (fun h e => max h e.2) 0 = s.maxMdd := le_antisymm hF_le hge
      rw [hFeq]
      have hdle : exclDrop C1 s.maxMdd.toNat s.maxMdd ≤ s.maxMdd :=
        exclDrop_le C1 s.maxMdd.toNat s.maxMdd
      by_cases hlt : exclDrop C1 s.maxMdd.toNat s.maxMdd < s.maxMdd
      · rw [if_pos hlt]
      · rw [if_neg hlt]
        exact le_antisymm hdle (not_lt.mp hlt)
    · rw [exclDrop_stop C1 s.maxMdd.toNat s.maxMdd hC1, if_neg (not_lt.mpr hF_le)]
  rw [hmx]

/-- `remove_dominator(v)` exactly undoes a matching `add_dominator(v)`
on a well-formed state.  The hypotheses record the state the solver
guarantees at the call: vertex indices in range, the undominated list
duplicate-free, disjoint from `v`'s (just-covered) neighbours and
carrying live values, recomputed MDDs never `INVALID_MDD`, and the
`mdd_counts` / `max_mdd` / `mdd_values` invariants. -/
theorem mddAddRemove_restores (n : Nat) (nbrs undom : List Nat)
    (recompute : Nat → Int) (v : Nat) (s : MddState)
    (hnb : ∀ u ∈ nbrs, u < n) (hun : ∀ u ∈ undom, u < n)
    (hnd : undom.Nodup)
    (hNI : ∀ u ∈ undom, s.values u ≠ INVALID_MDD)
    (hdisj : ∀ u ∈ undom, u ∉ nbrs)
    (hrecNI : ∀ u, recompute u ≠ INVALID_MDD)
    (hcons : mddConsistent s.values s.counts n)
    (hmax : mddMaxInv s.counts s.maxMdd)
    (hvals : mddValuesInv s.values s.maxMdd) :
    remove_dominator v (add_dominator nbrs undom recompute v s) = s := by
  obtain ⟨V1, C1, N1, h1⟩ :
      ∃ a b c, addDomLoop1 nbrs (s.values, s.counts, []) = (a, b, c) :=
    ⟨_, _, _, rfl⟩
  obtain ⟨V2, C2, N2, h2⟩ :
      ∃ a b c, addDomLoop2 undom recompute (V1, C1, []) = (a, b, c) :=
    ⟨_, _, _, rfl⟩
  have hAdd : add_dominator nbrs undom recompute v s =
      MddState.mk V2 C2 (addDrop C2 s.maxMdd.toNat s.maxMdd) ((v, N2 ++ N1) :: s.stack) := by
    rw [show add_dominator nbrs undom recompute v s =
        MddState.mk (addDomLoop2 undom recompute (addDomLoop1 nbrs (s.values, s.counts, []))).1
          (addDomLoop2 undom recompute (addDomLoop1 nbrs (s.values, s.counts, []))).2.1
          (addDrop (addDomLoop2 undom recompute (addDomLoop1 nbrs (s.values, s.counts, []))).2.1
            s.maxMdd.toNat s.maxMdd)
          ((v, (addDomLoop2 undom recompute (addDomLoop1 nbrs (s.values, s.counts, []))).2.2)
            :: s.stack)
        from rfl, h1, addDomLoop2_shift undom recompute V1 C1 N1, h2]
  obtain ⟨hin1, hin2⟩ := addDomLoop2_restore recompute hrecNI undom V1 C1 0 hnd
  rw [h2] at hin1 hin2
  dsimp only at hin1 hin2
  have hX : restoreRow N2 (V2, C2, 0) = (V1, C1, (restoreRow N2 (V2, C2, 0)).2.2) := by
    rw [show restoreRow N2 (V2, C2, 0) =
        ((restoreRow N2 (V2, C2, 0)).1, (restoreRow N2 (V2, C2, 0)).2.1,
         (restoreRow N2 (V2, C2, 0)).2.2) from rfl, hin1, hin2]
  obtain ⟨hout1, hout2⟩ :=
    addDomLoop1_restore nbrs s.values s.counts (restoreRow N2 (V2, C2, 0)).2.2
  rw [h1] at hout1 hout2
  dsimp only at hout1 hout2
  have hv : (restoreRow (N2 ++ N1) (V2, C2, 0)).1 = s.values := by
    rw [restoreRow_append, hX]
    exact hout1
  have hc2 : (restoreRow (N2 ++ N1) (V2, C2, 0)).2.1 = s.counts := by
    rw [restoreRow_append, hX]
    exact hout2
  obtain ⟨hrow1, htouch1, huntouch1⟩ := addDomLoop1_row nbrs s.values s.counts
  rw [h1] at hrow1 htouch1 huntouch1
  dsimp only at hrow1 htouch1 huntouch1
  obtain ⟨hrow2, htouch2, _⟩ := addDomLoop2_row recompute undom V1 C1 hnd
  rw [h2] at hrow2 htouch2
  dsimp only at hrow2 htouch2
  have hcons1 := addDomLoop1_consistent n nbrs s.values s.counts [] hnb hcons
  rw [h1] at hcons1
  dsimp only at hcons1
  have hcons2 := addDomLoop2_consistent n recompute undom V1 C1 [] hun hcons1
  rw [h2] at hcons2
  dsimp only at hcons2
  rw [hAdd, remove_cons, hv, hc2, restoreRow_highest]
  dsimp only
  have hent : ∀ e ∈ N2 ++ N1, e.2 ≤ s.maxMdd := by
    intro e he
    rcases List.mem_append.mp he with h | h
    · obtain ⟨ha, hb⟩ := hrow2 e h
      rw [ha, huntouch1 e.1 (hdisj e.1 hb)]
      exact (hvals e.1 (hNI e.1 hb)).2
    · obtain ⟨ha, _, hc⟩ := hrow1 e h
      rw [ha]
      exact (hvals e.1 hc).2
  have hF_le : (N2 ++ N1).foldl (fun h e => max h e.2) 0 ≤ s.maxMdd :=
    rowMax_le s.maxMdd (N2 ++ N1) 0 hmax.1 hent
  have hmx : (if (N2 ++ N1).foldl (fun h e => max h e.2) 0 > addDrop C2 s.maxMdd.toNat s.maxMdd
      then (N2 ++ N1).foldl (fun h e => max h e.2) 0
      else addDrop C2 s.maxMdd.toNat s.maxMdd) = s.maxMdd := by
    by_cases hC2 : C2 s.maxMdd = 0
    · rcases hmax.2.2.2 with hsc | hsm0
      · have hcv : cardVal s.values n s.maxMdd ≠ 0 :=
          hcons s.maxMdd hmax.1 hmax.2.1 ▸ hsc
        obtain ⟨u0, hu0n, hu0v⟩ := cardVal_ne_zero s.values s.maxMdd n hcv
        have hzero : cardVal V2 n s.maxMdd = 0 :=
          (hcons2 s.maxMdd hmax.1 hmax.2.1).symm.trans hC2
        have hne : V2 u0 ≠ s.values u0 := fun hh =>
          cardVal_eq_zero V2 s.maxMdd n hzero u0 hu0n (hh.trans hu0v)
        have hmem : (u0, s.values u0) ∈ N2 ++ N1 := by
          by_cases hV1 : V1 u0 = s.values u0
          · have hne2 : V2 u0 ≠ V1 u0 := by
              rw [hV1]
              exact hne
            have hm2 := htouch2 u0 hne2
            rw [hV1] at hm2
            exact List.mem_append.mpr (Or.inl hm2)
          · exact List.mem_append.mpr (Or.inr (htouch1 u0 hV1))
        have hge := rowMax_ge_mem (N2 ++ N1) (u0, s.values u0) hmem 0
        dsimp only at hge
        rw [hu0v] at hge
        have hFeq : (N2 ++ N1).foldl (fun h e => max h e.2) 0 = s.maxMdd :=
          le_antisymm hF_le hge
        rw [hFeq]
        have hdle : addDrop C2 s.maxMdd.toNat s.maxMdd ≤ s.maxMdd :=
          addDrop_le C2 s.maxMdd.toNat s.maxMdd
        by_cases hlt : addDrop C2 s.maxMdd.toNat s.maxMdd < s.maxMdd
        · rw [if_pos hlt]
        · rw [if_neg hlt]
          exact le_antisymm hdle (not_lt.mp hlt)
      · have hF_ge : (0 : Int) ≤ (N2 ++ N1).foldl (fun h e => max h e.2) 0 :=
          rowMax_ge_init (N2 ++ N1) 0
        have hFeq : (N2 ++ N1).foldl (fun h e => max h e.2) 0 = s.maxMdd :=
          le_antisymm hF_le (hsm0 ▸ hF_ge)
        have hdrop : addDrop C2 s.maxMdd.toNat s.maxMdd = s.maxMdd := by
          rw [hsm0]
          rfl
        rw [hFeq, hdrop, if_neg (lt_irrefl s.maxMdd)]
    · have hdrop : addDrop C2 s.maxMdd.toNat s.maxMdd = s.maxMdd :=
        addDrop_stop C2 s.maxMdd.toNat s.maxMdd fun hh => hC2 hh.1
      rw [hdrop, if_neg (not_lt.mpr hF_le)]
  rw [hmx]

/-- C6: on a well-formed `MDDStack` state (bucket counts consistent
with the value census, the `max_mdd` and `mdd_values` invariants,
in-range vertex indices, a duplicate-free undominated list disjoint
from the newly covered neighbours and carrying live values, recomputed
MDDs never `INVALID_MDD`, and some vertex still undominated), a
LIFO-paired `remove_dominator(v)` after `add_dominator(v)` restores
`mdd_values`, `mdd_counts` and `max_mdd` (and the row stack) exactly,
and likewise `unexclude_dominator(v)` after `exclude_dominator(v)`. -/
theorem C6_pairing_restores_state (n : Nat) (nbrs undom : List Nat)
    (undomContains : Nat → Bool) (recompute : Nat → Int) (v : Nat) (s : MddState)
    (hnb : ∀ u ∈ nbrs, u < n) (hun : ∀ u ∈ undom, u < n)
    (hnd : undom.Nodup)
    (hNI : ∀ u ∈ undom, s.values u ≠ INVALID_MDD)
    (hdisj : ∀ u ∈ undom, u ∉ nbrs)
    (hexNI : ∀ u ∈ nbrs, undomContains u = true → s.values u ≠ INVALID_MDD)
    (hrecNI : ∀ u, recompute u ≠ INVALID_MDD)
    (hcons : mddConsistent s.values s.counts n)
    (hmax : mddMaxInv s.counts s.maxMdd)
    (hvals : mddValuesInv s.values s.maxMdd)
    (hlive : s.counts s.maxMdd ≠ 0) :
    remove_dominator v (add_dominator nbrs undom recompute v s) = s ∧
    unexclude_dominator v (exclude_dominator nbrs undomContains recompute v s) = s :=
  ⟨mddAddRemove_restores n nbrs undom recompute v s hnb hun hnd hNI hdisj hrecNI
      hcons hmax hvals,
   mddExclUnexcl_restores n nbrs undomContains recompute v s hnb hexNI hrecNI
      hcons hmax hvals hlive⟩

/-- C6 witness: on the concrete two-vertex state `c6State`, adding
dominator 0 (covering neighbour 1) and removing it restores the state,
and excluding candidate 0 and unexcluding it restores the state. -/
theorem C6_pairing_restores_state_witness :
    remove_dominator 0 (add_dominator [1] [] (fun _ => 0) 0 c6State) = c6State ∧
    unexclude_dominator 0
      (exclude_dominator [1] (fun _ => true) (fun _ => 0) 0 c6State) = c6State := by
  have key : ∀ d : Int, cardVal (fun _ => (1 : Int)) 2 d = if d = 1 then 2 else 0 := by
    intro d
    rw [cardVal_succ, cardVal_succ]
    by_cases hd : d = 1
    · rw [if_pos (show (1 : Int) = d from hd.symm), if_pos hd]
      norm_num [cardVal]
    · rw [if_neg (show ¬((1 : Int) = d) from fun hh => hd hh.symm), if_neg hd]
      norm_num [cardVal]
  exact C6_pairing_restores_state 2 [1] [] (fun _ => true) (fun _ => 0) 0 c6State
    (by decide)
    (fun u hu => absurd hu (List.not_mem_nil u))
    (by decide)
    (fun u hu => absurd hu (List.not_mem_nil u))
    (fun u hu => absurd hu (List.not_mem_nil u))
    (by decide)
    (fun _ => (by decide : (0 : Int) ≠ INVALID_MDD))
    (fun d _ _ => (key d).symm)
    (by
      refine ⟨by decide, by decide, ?_, Or.inl (by decide)⟩
      intro d _ _ hd
      have hd1 : (1 : Int) < d := hd
      rw [show c6State.counts d = if d = 1 then 2 else 0 from rfl, if_neg]
      intro hh
      rw [hh] at hd1
      exact absurd hd1 (by decide))
    (fun u _ => ⟨(by decide : (0 : Int) ≤ 1), (by decide : (1 : Int) ≤ 1)⟩)
    (by decide)

end Unidom
